import Mathlib

set_option maxHeartbeats 2000000

/-!
# Verter: a single-file paged blob store, shallowly embedded

This file embeds the byte-level data model and the operations of the
`verter` storage engine (`src/lib.rs`) and proves properties of the
embedding.  The underlying disk file is a list of natural numbers, one per
byte; all on-disk 64-bit integers are little-endian; seeking and
reading/writing at offsets is explicit.  Fallible operations return a
result that also carries the state of the file bytes reached (mirroring
`&mut self` in the source); loops carry a fuel parameter, and running out
of fuel is a distinct `div` outcome, never confused with an error.
-/

namespace Verter

/-! ## Byte-level primitives -/
/-- The byte stored at offset `i` of a byte list (0 beyond the end,
matching a zero-initialized read buffer that a short read leaves as is). -/
def byteAt (d : List Nat) (i : Nat) : Nat := d.getD i 0

/-- Overwrite bytes `off, off+1, ...` with `bs`, growing the list (with a
zero gap, matching seek-past-end-and-write semantics) if needed. -/
def writeBytes (d : List Nat) (off : Nat) (bs : List Nat) : List Nat :=
  (List.range (max d.length (off + bs.length))).map fun i =>
    if off ≤ i ∧ i < off + bs.length then bs.getD (i - off) 0 else d.getD i 0

/-- Read `n` bytes starting at offset `off` (bytes past the end read as 0,
matching a pre-zeroed buffer and a short `read`). -/
def readBytes (d : List Nat) (off n : Nat) : List Nat :=
  (List.range n).map fun i => byteAt d (off + i)

/-! ## Little-endian 64-bit integers -/
/-- `u64::to_le_bytes`. -/
def u64ToLeBytes (v : Nat) : List Nat :=
  [v % 256, v / 2 ^ 8 % 256, v / 2 ^ 16 % 256, v / 2 ^ 24 % 256,
   v / 2 ^ 32 % 256, v / 2 ^ 40 % 256, v / 2 ^ 48 % 256, v / 2 ^ 56 % 256]

/-- `u64::from_le_bytes` over an 8-byte buffer. -/
def leBytesToU64 (bs : List Nat) : Nat :=
  bs.getD 0 0 + bs.getD 1 0 * 2 ^ 8 + bs.getD 2 0 * 2 ^ 16 + bs.getD 3 0 * 2 ^ 24 +
  bs.getD 4 0 * 2 ^ 32 + bs.getD 5 0 * 2 ^ 40 + bs.getD 6 0 * 2 ^ 48 + bs.getD 7 0 * 2 ^ 56

/-! ## Errors, configuration, the page header codec (`enum Error`, `struct Config`,
`enum PageHeader` in the source).  `IO` errors cannot arise in the embedded
byte model (reads past the end are short reads), so the `IO` constructor is
carried but never produced. -/
inductive Error where
  | IOErr
  | InvalidFile
  | InvalidPointer
  | DeletedPointer
  | CorruptedFile
deriving DecidableEq, Repr

def BYTES_IN_U64 : Nat := 8

structure Config where
  /-- The magic bytes at the start of the file -/
  magic_bytes : List Nat
  /-- The number of bytes per page, excluding the page header -/
  page_size : Nat
deriving DecidableEq, Repr

inductive PageHeader where
  /-- There is a next page; the value is the pointer of the next page. -/
  | NextPage (next : Nat)
  /-- This is the last page; the value is the number of bytes in this page. -/
  | FinalPage (size : Nat)
  /-- A deleted page; the value is the pointer to the next deleted page, or 0. -/
  | DeletedPage (next : Nat)
deriving DecidableEq, Repr

namespace PageHeader

def FLAG_MASK : Nat := 3 <<< 62

def NEXT_PAGE_FLAG : Nat := 0 <<< 62

def FINAL_PAGE_FLAG : Nat := 1 <<< 62

def DELETED_PAGE_FLAG : Nat := 2 <<< 62

def to_u64 : PageHeader → Nat
  | NextPage next => NEXT_PAGE_FLAG ||| next
  | FinalPage size => FINAL_PAGE_FLAG ||| size
  | DeletedPage next => DELETED_PAGE_FLAG ||| next

/-- `!FLAG_MASK` over `u64` is the low-62-bit mask `2 ^ 62 - 1`. -/
def from_u64 (val : Nat) : PageHeader :=
  let subval := val &&& (2 ^ 62 - 1)
  if val &&& FLAG_MASK = NEXT_PAGE_FLAG then NextPage subval
  else if val &&& FLAG_MASK = FINAL_PAGE_FLAG then FinalPage subval
  else DeletedPage subval

/-- The tag-independent 62-bit value of a header. -/
def value : PageHeader → Nat
  | NextPage next => next
  | FinalPage size => size
  | DeletedPage next => next

/-- The numeric tag of a header variant. -/
def tagNum : PageHeader → Nat
  | NextPage _ => 0
  | FinalPage _ => 1
  | DeletedPage _ => 2

end PageHeader

/-! ## The file and its operations (`struct File` and `impl File`) -/
/-- The open file: its bytes on disk and its configuration. -/
structure File where
  data : List Nat
  config : Config
deriving DecidableEq, Repr

/-- The result of a fallible operation on `&mut self`: success or error, each
carrying the file bytes reached, or `div` when a loop's fuel ran out (the
source loop has not terminated yet at that fuel). -/
inductive MRes (α : Type) where
  | ok (a : α) (f : File)
  | err (e : Error) (f : File)
  | div
deriving DecidableEq, Repr

/-- Result of the read loop (which never writes, so carries no file). -/
inductive RRes where
  | ok (d : List Nat)
  | err (e : Error)
  | div
deriving DecidableEq, Repr

namespace Config

def header_size (c : Config) : Nat := c.magic_bytes.length + 2 * BYTES_IN_U64

def total_page_size (c : Config) : Nat := BYTES_IN_U64 + c.page_size

end Config

namespace File

def magic_bytes_ptr (_f : File) : Nat := 0

def first_free_page_ptr (f : File) : Nat := f.magic_bytes_ptr + f.config.magic_bytes.length

def header_size (f : File) : Nat := f.config.magic_bytes.length + 2 * BYTES_IN_U64

def total_page_size (f : File) : Nat := BYTES_IN_U64 + f.config.page_size

def root_page_ptr (f : File) : Nat := f.first_free_page_ptr + BYTES_IN_U64

def file_size (f : File) : Nat := f.data.length

def read_u64 (f : File) (ptr : Nat) : Nat := leBytesToU64 (readBytes f.data ptr BYTES_IN_U64)

def read_page_header (f : File) (ptr : Nat) : PageHeader := PageHeader.from_u64 (f.read_u64 ptr)

def write_u64 (f : File) (ptr val : Nat) : File :=
  ⟨writeBytes f.data ptr (u64ToLeBytes val), f.config⟩

def write_page_header (f : File) (ptr : Nat) (header : PageHeader) : File :=
  f.write_u64 ptr header.to_u64

def first_free_page (f : File) : Nat := f.read_u64 f.first_free_page_ptr

def root_page (f : File) : Nat := f.read_u64 f.root_page_ptr

def check_if_file_valid (f : File) : Except Error Unit :=
  -- the Rust code reads `magic_bytes.len()` bytes into a zeroed buffer;
  -- `bytes_read` is the number actually available from offset 0
  let bytes_read := min f.config.magic_bytes.length f.data.length
  if bytes_read < f.config.magic_bytes.length ∨
      f.config.magic_bytes ≠ readBytes f.data 0 f.config.magic_bytes.length then
    .error .InvalidFile
  else
    .ok ()

def check_if_pointer_valid (f : File) (ptr : Nat) : Except Error Unit :=
  if ptr < f.header_size ∨ (ptr - f.header_size) % f.total_page_size ≠ 0 then
    .error .InvalidPointer
  else if f.file_size ≤ ptr then
    .error .InvalidPointer
  else
    match f.read_page_header ptr with
    | .DeletedPage _ => .error .DeletedPointer
    | _ => .ok ()

/-- `File::alloc`: pop the free list, or extend the file by one page stride
filled with `0xFF`; either way the page gets a `FinalPage 0` header. -/
def alloc (f : File) : MRes Nat :=
  let free_page := f.first_free_page
  if free_page = 0 then
    let new_page_ptr := f.data.length
    let f1 : File := ⟨writeBytes f.data new_page_ptr (List.replicate f.total_page_size 255), f.config⟩
    .ok new_page_ptr (f1.write_page_header new_page_ptr (.FinalPage 0))
  else
    match f.read_page_header free_page with
    | .DeletedPage next =>
        let f1 := f.write_u64 f.first_free_page_ptr next
        .ok free_page (f1.write_page_header free_page (.FinalPage 0))
    | _ => .err .CorruptedFile f

/-- The loop body of `File::delete`: push each page of the chain onto the
free list, scrubbing its payload with `0xFF`. -/
def deleteLoop : Nat → File → Nat → MRes Unit
  | 0, _, _ => .div
  | fuel + 1, f, ptr =>
    let header := f.read_page_header ptr
    let free_pages := f.first_free_page
    let f1 := f.write_page_header ptr (.DeletedPage free_pages)
    let f2 := f1.write_u64 f1.first_free_page_ptr ptr
    let f3 : File := ⟨writeBytes f2.data (ptr + BYTES_IN_U64) (List.replicate f.config.page_size 255), f.config⟩
    match header with
    | .NextPage next => deleteLoop fuel f3 next
    | .FinalPage _ => .ok () f3
    | .DeletedPage _ => .err .CorruptedFile f3

/-- `File::delete`. -/
def delete (f : File) (ptr : Nat) (fuel : Nat) : MRes Unit :=
  match f.check_if_pointer_valid ptr with
  | .error e => .err e f
  | .ok _ => deleteLoop fuel f ptr

/-- The loop of `File::read`: accumulate payload bytes along the chain. -/
def readLoop : Nat → File → Nat → List Nat → RRes
  | 0, _, _, _ => .div
  | fuel + 1, f, ptr, acc =>
    match f.read_page_header ptr with
    | .NextPage next =>
        readLoop fuel f next (acc ++ readBytes f.data (ptr + BYTES_IN_U64) f.config.page_size)
    | .FinalPage size => .ok (acc ++ readBytes f.data (ptr + BYTES_IN_U64) size)
    | .DeletedPage _ => .err .CorruptedFile

/-- `File::read`. -/
def read (f : File) (ptr : Nat) (fuel : Nat) : MRes (List Nat) :=
  match f.check_if_pointer_valid ptr with
  | .error e => .err e f
  | .ok _ =>
    match readLoop fuel f ptr [] with
    | .ok d => .ok d f
    | .err e => .err e f
    | .div => .div

/-- `File::read_root`. -/
def read_root (f : File) (fuel : Nat) : MRes (List Nat) := f.read f.root_page fuel

/-- The tail of `File::write` after the while loop: possibly delete the
orphaned tail chain, then write the final page's payload, fill the
remainder with `0xFF`, and set the `FinalPage` header. -/
def writeFinal (f : File) (ptr : Nat) (data : List Nat) : MRes Unit :=
  let f1 : File := ⟨writeBytes f.data (ptr + BYTES_IN_U64) data, f.config⟩
  let f2 : File := ⟨writeBytes f1.data (ptr + BYTES_IN_U64 + data.length)
      (List.replicate (f.config.page_size - data.length) 255), f.config⟩
  .ok () (f2.write_page_header ptr (.FinalPage data.length))

/-- The while loop of `File::write` plus its final-page step. -/
def writeLoop : Nat → File → Nat → List Nat → MRes Unit
  | 0, _, _, _ => .div
  | fuel + 1, f, ptr, data =>
    if f.config.page_size < data.length then
      let f1 : File := ⟨writeBytes f.data (ptr + BYTES_IN_U64) (data.take f.config.page_size), f.config⟩
      let data1 := data.drop f.config.page_size
      match f1.read_page_header ptr with
      | .NextPage next => writeLoop fuel f1 next data1
      | .FinalPage _ =>
          match f1.alloc with
          | .ok new_page f2 =>
              writeLoop fuel (f2.write_page_header ptr (.NextPage new_page)) new_page data1
          | .err e f2 => .err e f2
          | .div => .div
      | .DeletedPage _ => .err .CorruptedFile f1
    else
      match f.read_page_header ptr with
      | .NextPage truncated_pages =>
          -- there are more pages in this chain we no longer need: delete them
          match f.delete truncated_pages fuel with
          | .ok _ f2 => writeFinal f2 ptr data
          | .err e f2 => .err e f2
          | .div => .div
      | _ => writeFinal f ptr data

/-- `File::write`. -/
def write (f : File) (ptr : Nat) (data : List Nat) (fuel : Nat) : MRes Unit :=
  match f.check_if_pointer_valid ptr with
  | .error e => .err e f
  | .ok _ => writeLoop fuel f ptr data

/-- `File::write_root`. -/
def write_root (f : File) (data : List Nat) (fuel : Nat) : MRes Unit :=
  f.write f.root_page data fuel

/-- `File::create_header`: magic bytes, zeroed free-list head and root slots,
then one allocated page whose handle becomes the root. -/
def create_header (f : File) : MRes Unit :=
  let f1 : File := ⟨writeBytes f.data f.magic_bytes_ptr f.config.magic_bytes, f.config⟩
  let f2 := f1.write_u64 f1.first_free_page_ptr 0
  let f3 := f2.write_u64 f2.root_page_ptr 0
  match f3.alloc with
  | .ok first_root_page f4 => .ok () (f4.write_u64 f4.root_page_ptr first_root_page)
  | .err e f4 => .err e f4
  | .div => .div

end File

/-- `File::open`: `disk` is the byte content of an existing file at `path`,
or `none` when no file exists there.  Returns the result together with the
byte content of the file on disk after the call. -/
def open_file (disk : Option (List Nat)) (config : Config) : Except Error File × List Nat :=
  match disk with
  | none =>
      match File.create_header ⟨[], config⟩ with
      | .ok _ f => (.ok f, f.data)
      | .err e f => (.error e, f.data)
      | .div => (.error .CorruptedFile, [])  -- unreachable: create_header has no loop
  | some d =>
      let f : File := ⟨d, config⟩
      match f.check_if_file_valid with
      | .error e => (.error e, d)
      | .ok _ => (.ok f, d)

/-! ## Page geometry -/
/-- `p` is the offset of a whole page that lies inside a file of `len` bytes:
at or after the fixed header, aligned to the page stride, fully in bounds. -/
structure PagePtr (c : Config) (p len : Nat) : Prop where
  hs_le : c.header_size ≤ p
  aligned : (p - c.header_size) % c.total_page_size = 0
  in_bounds : p + c.total_page_size ≤ len

/-! ## Chains, the free list, and well-formedness -/
/-- The pages of an active chain starting at `ptr`, in visit order: a run of
`NextPage` links finishing at a `FinalPage` whose recorded count fits the
page. -/
inductive Chain (f : File) : Nat → List Nat → Prop where
  | final (ptr n : Nat) (hn : n ≤ f.config.page_size)
      (hhdr : f.read_page_header ptr = .FinalPage n) : Chain f ptr [ptr]
  | next (ptr nxt : Nat) (rest : List Nat)
      (hhdr : f.read_page_header ptr = .NextPage nxt)
      (hrest : Chain f nxt rest) : Chain f ptr (ptr :: rest)

/-- An active chain that carries exactly the byte string `data` in its
payloads: each non-final page holds the next `page_size` bytes, the final
page holds the remainder and records its length. -/
inductive ChainW (f : File) : Nat → List Nat → List Nat → Prop where
  | last (ptr : Nat) (data : List Nat) (hlen : data.length ≤ f.config.page_size)
      (hhdr : f.read_page_header ptr = .FinalPage data.length)
      (hdata : readBytes f.data (ptr + 8) data.length = data) :
      ChainW f ptr [ptr] data
  | cons (ptr nxt : Nat) (rest : List Nat) (data : List Nat)
      (hlen : f.config.page_size < data.length)
      (hhdr : f.read_page_header ptr = .NextPage nxt)
      (hdata : readBytes f.data (ptr + 8) f.config.page_size = data.take f.config.page_size)
      (hrest : ChainW f nxt rest (data.drop f.config.page_size)) :
      ChainW f ptr (ptr :: rest) data

/-- The free list starting at head pointer `h` (0 terminates it). -/
inductive FreeChain (f : File) : Nat → List Nat → Prop where
  | nil : FreeChain f 0 []
  | cons (p nxt : Nat) (rest : List Nat) (hp : p ≠ 0)
      (hhdr : f.read_page_header p = .DeletedPage nxt)
      (hrest : FreeChain f nxt rest) : FreeChain f p (p :: rest)

/-- The structural well-formedness of the file geometry: a positive page
size, a byte length that is the fixed header plus whole pages, and a length
small enough that page offsets fit in a header's 62-bit value (the spec's
standing assumption that files are far smaller than `2 ^ 62`). -/
structure WFcore (f : File) : Prop where
  psPos : 0 < f.config.page_size
  lenLB : f.header_size ≤ f.data.length
  lenAligned : (f.data.length - f.header_size) % f.total_page_size = 0
  lenBound : f.data.length < 2 ^ 62

/-- The free list is well-formed: a `FreeChain` from the stored head with no
duplicates, all of whose members are in-bounds pages. -/
structure FreeOK (f : File) (FL : List Nat) : Prop where
  chain : FreeChain f f.first_free_page FL
  nodup : FL.Nodup
  valid : ∀ p ∈ FL, PagePtr f.config p f.data.length

/-- An active chain all of whose pages are distinct, in-bounds pages. -/
structure GoodChain (f : File) (ptr : Nat) (pages : List Nat) : Prop where
  chain : Chain f ptr pages
  nodup : pages.Nodup
  valid : ∀ p ∈ pages, PagePtr f.config p f.data.length

/-- The body of one `deleteLoop` iteration: push `ptr` onto the free list
and scrub its payload. -/
def File.deletePush (f : File) (ptr : Nat) : File :=
  let free_pages := f.first_free_page
  let f1 := f.write_page_header ptr (.DeletedPage free_pages)
  let f2 := f1.write_u64 f1.first_free_page_ptr ptr
  ⟨writeBytes f2.data (ptr + BYTES_IN_U64) (List.replicate f.config.page_size 255), f.config⟩

/-! ## The write path -/
/-- The payload write at the head of one `writeLoop` iteration. -/
def File.writeChunk (f : File) (ptr : Nat) (data : List Nat) : File :=
  ⟨writeBytes f.data (ptr + BYTES_IN_U64) (data.take f.config.page_size), f.config⟩

/-- Number of pages a blob of `n` bytes occupies: `⌈max 1 n / P⌉`. -/
def pageCount (P n : Nat) : Nat := max 1 ((n + P - 1) / P)

/-! ## Concrete fixtures used by the witnesses and counterexamples

A tiny configuration (one magic byte `86`, one payload byte per page):
header size 17, page stride 9.  `fW` is the file freshly created by `open`;
its root chain is the single page at offset 17. -/
def cfgW : Config := ⟨[86], 1⟩

def fW : File := match open_file none cfgW with
  | (.ok g, _) => g
  | _ => ⟨[], cfgW⟩

/-- `fW` after `alloc` (returns the fresh page 26). -/
def f1W : File := match fW.alloc with | .ok _ g => g | _ => fW

/-- `f1W` after `write 26 [7, 8]` (the blob grows to two pages). -/
def f2W : File := match f1W.write 26 [7, 8] 5 with | .ok _ g => g | _ => f1W

/-- `f1W` after `delete 26` (page 26 heads the free list). -/
def fdelW : File := match f1W.delete 26 5 with | .ok _ g => g | _ => f1W

/-- `fW` after `write_root [9, 8]`. -/
def f2C2 : File := match fW.write_root [9, 8] 5 with | .ok _ g => g | _ => fW

/-- `f1W` after `write 26 [3]` (the root chain `[17]` is untouched). -/
def fw10 : File := match f1W.write 26 [3] 5 with | .ok _ g => g | _ => f1W

/-- A corrupted file: page 17 has header `NextPage 26`, but page 26 has
header `NextPage 3`, a dangling pointer below the file header. -/
def fC6 : File := ⟨[86, 0, 0, 0, 0, 0, 0, 0, 0, 17, 0, 0, 0, 0, 0, 0, 0,
  26, 0, 0, 0, 0, 0, 0, 0, 255, 3, 0, 0, 0, 0, 0, 0, 0, 255], cfgW⟩

/-- `fC6` with the payload byte of page 17 overwritten to 1. -/
def fC6mut : File := ⟨[86, 0, 0, 0, 0, 0, 0, 0, 0, 17, 0, 0, 0, 0, 0, 0, 0,
  26, 0, 0, 0, 0, 0, 0, 0, 1, 3, 0, 0, 0, 0, 0, 0, 0, 255], cfgW⟩

/-- A well-formed file with the two-page chain 17 → 26 (`NextPage 26`,
then `FinalPage 1` with payload byte 9). -/
def fd : File := ⟨[86, 0, 0, 0, 0, 0, 0, 0, 0, 17, 0, 0, 0, 0, 0, 0, 0,
  26, 0, 0, 0, 0, 0, 0, 0, 255, 1, 0, 0, 0, 0, 0, 0, 64, 9], cfgW⟩

/-- `fd` after `delete 17`. -/
def fdDel : File := match fd.delete 17 5 with | .ok _ g => g | _ => fd

/-! ## Theorems -/

theorem getD_map_range (f : Nat → Nat) (n i : Nat) :
    ((List.range n).map f).getD i 0 = if i < n then f i else 0 := by
  by_cases h : i < n
  · simp [h, List.getD_eq_getElem?_getD, List.getElem?_map, List.getElem?_range h]
  · have hlen : ((List.range n).map f).length = n := by simp
    simp only [h, if_false]
    rw [List.getD_eq_getElem?_getD, List.getElem?_eq_none (by omega), Option.getD_none]

@[simp] theorem length_writeBytes (d : List Nat) (off : Nat) (bs : List Nat) :
    (writeBytes d off bs).length = max d.length (off + bs.length) := by
  simp [writeBytes]

@[simp] theorem length_readBytes (d : List Nat) (off n : Nat) :
    (readBytes d off n).length = n := by
  simp [readBytes]

theorem byteAt_writeBytes (d : List Nat) (off : Nat) (bs : List Nat) (i : Nat) :
    byteAt (writeBytes d off bs) i =
      if off ≤ i ∧ i < off + bs.length then bs.getD (i - off) 0 else byteAt d i := by
  unfold byteAt writeBytes
  rw [getD_map_range]
  by_cases h : i < max d.length (off + bs.length)
  · simp [h]
  · have h1 : ¬ (off ≤ i ∧ i < off + bs.length) := by omega
    have h2 : d.length ≤ i := by omega
    simp only [h, if_false, h1]
    rw [List.getD_eq_getElem?_getD, List.getElem?_eq_none (by omega), Option.getD_none]

theorem byteAt_writeBytes_lo (d : List Nat) (off : Nat) (bs : List Nat) (i : Nat)
    (h : i < off ∨ off + bs.length ≤ i) :
    byteAt (writeBytes d off bs) i = byteAt d i := by
  rw [byteAt_writeBytes]
  have : ¬ (off ≤ i ∧ i < off + bs.length) := by omega
  simp [this]

theorem byteAt_writeBytes_hi (d : List Nat) (off : Nat) (bs : List Nat) (i : Nat)
    (h1 : off ≤ i) (h2 : i < off + bs.length) :
    byteAt (writeBytes d off bs) i = bs.getD (i - off) 0 := by
  rw [byteAt_writeBytes]
  simp [h1, h2]

theorem byteAt_readBytes (d : List Nat) (off n i : Nat) :
    byteAt (readBytes d off n) i = if i < n then byteAt d (off + i) else 0 := by
  unfold readBytes
  exact getD_map_range _ n i

/-- Rebuild a list from its `getD` entries. -/
theorem map_range_getD (bs : List Nat) :
    (List.range bs.length).map (fun i => bs.getD i 0) = bs := by
  apply List.ext_get
  · simp
  · intro i h1 h2
    simp only [List.get_eq_getElem, List.getElem_map, List.getElem_range]
    rw [List.getD_eq_getElem?_getD, List.getElem?_eq_getElem h2]
    rfl

/-- Reading back exactly what was just written. -/
theorem readBytes_writeBytes_self (d : List Nat) (off : Nat) (bs : List Nat) :
    readBytes (writeBytes d off bs) off bs.length = bs := by
  unfold readBytes
  have : ∀ i ∈ List.range bs.length,
      byteAt (writeBytes d off bs) (off + i) = bs.getD i 0 := by
    intro i hi
    rw [List.mem_range] at hi
    rw [byteAt_writeBytes_hi d off bs (off + i) (by omega) (by omega)]
    congr 1
    omega
  rw [List.map_congr_left this, map_range_getD]

/-- Reading a range only depends on the bytes in that range. -/
theorem readBytes_congr (d1 d2 : List Nat) (off n : Nat)
    (h : ∀ i, off ≤ i → i < off + n → byteAt d1 i = byteAt d2 i) :
    readBytes d1 off n = readBytes d2 off n := by
  unfold readBytes
  apply List.map_congr_left
  intro i hi
  rw [List.mem_range] at hi
  exact h (off + i) (by omega) (by omega)

@[simp] theorem length_u64ToLeBytes (v : Nat) : (u64ToLeBytes v).length = 8 := by
  simp [u64ToLeBytes]

theorem u64ToLeBytes_lt (v : Nat) : ∀ b ∈ u64ToLeBytes v, b < 256 := by
  intro b hb
  simp only [u64ToLeBytes, List.mem_cons, List.not_mem_nil, or_false] at hb
  rcases hb with h | h | h | h | h | h | h | h <;> omega

theorem leBytesToU64_u64ToLeBytes (v : Nat) :
    leBytesToU64 (u64ToLeBytes v) = v % 2 ^ 64 := by
  simp only [leBytesToU64, u64ToLeBytes, List.getD_cons_zero, List.getD_cons_succ]
  omega

namespace PageHeader

theorem or_shift_eq_add (t v : Nat) (hv : v < 2 ^ 62) :
    (t <<< 62) ||| v = 2 ^ 62 * t + v := by
  rw [Nat.shiftLeft_eq, Nat.mul_comm t (2 ^ 62), ← Nat.mul_add_lt_is_or hv]

theorem and_mask_extract (t v : Nat) (ht : t < 4) (hv : v < 2 ^ 62) :
    (2 ^ 62 * t + v) &&& FLAG_MASK = 2 ^ 62 * t := by
  unfold FLAG_MASK
  apply Nat.eq_of_testBit_eq
  intro j
  simp only [Nat.testBit_and, Nat.testBit_shiftLeft,
    Nat.testBit_mul_pow_two_add t hv, Nat.testBit_mul_pow_two]
  by_cases hj : j < 62
  · have : ¬ (62 ≤ j) := by omega
    simp [hj, this]
  · have h62 : decide (62 ≤ j) = true := decide_eq_true (by omega)
    simp only [hj, if_false, h62, Bool.true_and]
    by_cases hk : j - 62 < 2
    · have h3 : Nat.testBit 3 (j - 62) = true := by
        interval_cases h : (j - 62) <;> decide
      simp [h3]
    · have h3 : Nat.testBit 3 (j - 62) = false :=
        Nat.testBit_lt_two_pow (by calc 3 < 2 ^ 2 := by norm_num
                                       _ ≤ 2 ^ (j - 62) := Nat.pow_le_pow_right (by norm_num) (by omega))
      have ht' : Nat.testBit t (j - 62) = false :=
        Nat.testBit_lt_two_pow (by calc t < 4 := ht
                                       _ ≤ 2 ^ (j - 62) := by
                                          have : (4:Nat) = 2 ^ 2 := by norm_num
                                          rw [this]
                                          exact Nat.pow_le_pow_right (by norm_num) (by omega))
      simp [h3, ht']

theorem and_low_extract (t v : Nat) (hv : v < 2 ^ 62) :
    (2 ^ 62 * t + v) &&& (2 ^ 62 - 1) = v := by
  rw [Nat.and_pow_two_sub_one_eq_mod]
  omega

theorem from_u64_decompose (t v : Nat) (ht : t < 4) (hv : v < 2 ^ 62) :
    from_u64 (2 ^ 62 * t + v) =
      if t = 0 then NextPage v else if t = 1 then FinalPage v else DeletedPage v := by
  unfold from_u64
  rw [and_low_extract t v hv, and_mask_extract t v ht hv]
  have e0 : NEXT_PAGE_FLAG = 2 ^ 62 * 0 := by decide
  have e1 : FINAL_PAGE_FLAG = 2 ^ 62 * 1 := by decide
  interval_cases t <;> simp [e0, e1]

theorem to_u64_eq (h : PageHeader) (hv : h.value < 2 ^ 62) :
    h.to_u64 = 2 ^ 62 * h.tagNum + h.value := by
  cases h with
  | NextPage n =>
      simp only [to_u64, NEXT_PAGE_FLAG, value, tagNum] at hv ⊢
      rw [or_shift_eq_add 0 n hv]
  | FinalPage n =>
      simp only [to_u64, FINAL_PAGE_FLAG, value, tagNum] at hv ⊢
      rw [or_shift_eq_add 1 n hv]
  | DeletedPage n =>
      simp only [to_u64, DELETED_PAGE_FLAG, value, tagNum] at hv ⊢
      rw [or_shift_eq_add 2 n hv]

theorem to_u64_lt (h : PageHeader) (hv : h.value < 2 ^ 62) : h.to_u64 < 2 ^ 64 := by
  rw [to_u64_eq h hv]
  cases h <;> simp only [value, tagNum] at hv ⊢ <;> omega

theorem from_u64_to_u64 (h : PageHeader) (hv : h.value < 2 ^ 62) :
    from_u64 h.to_u64 = h := by
  rw [to_u64_eq h hv]
  cases h with
  | NextPage n =>
      simp only [tagNum, value] at hv ⊢
      rw [from_u64_decompose 0 n (by norm_num) hv]; rfl
  | FinalPage n =>
      simp only [tagNum, value] at hv ⊢
      rw [from_u64_decompose 1 n (by norm_num) hv]; rfl
  | DeletedPage n =>
      simp only [tagNum, value] at hv ⊢
      rw [from_u64_decompose 2 n (by norm_num) hv]; rfl

/-- Decoded values are always below `2 ^ 62` (the mask clears the tag bits). -/
theorem from_u64_value_lt (val : Nat) : (from_u64 val).value < 2 ^ 62 := by
  have hlt : val &&& (2 ^ 62 - 1) < 2 ^ 62 := by
    rw [Nat.and_pow_two_sub_one_eq_mod]
    exact Nat.mod_lt _ (by norm_num)
  unfold from_u64
  split
  · exact hlt
  · split
    · exact hlt
    · exact hlt

end PageHeader

namespace File

/-! ## Low-level lemmas about `read_u64`/`write_u64` and page headers -/

@[simp] theorem config_write_u64 (f : File) (p v : Nat) : (f.write_u64 p v).config = f.config := rfl

@[simp] theorem config_write_page_header (f : File) (p : Nat) (h : PageHeader) :
    (f.write_page_header p h).config = f.config := rfl

theorem length_write_u64 (f : File) (p v : Nat) :
    (f.write_u64 p v).data.length = max f.data.length (p + 8) := by
  simp [write_u64, BYTES_IN_U64]

theorem byteAt_write_u64 (f : File) (p v i : Nat) (h : i < p ∨ p + 8 ≤ i) :
    byteAt (f.write_u64 p v).data i = byteAt f.data i := by
  unfold write_u64
  exact byteAt_writeBytes_lo _ _ _ _ (by simpa using h)

theorem byteAt_write_page_header (f : File) (p : Nat) (hd : PageHeader) (i : Nat)
    (h : i < p ∨ p + 8 ≤ i) :
    byteAt (f.write_page_header p hd).data i = byteAt f.data i :=
  byteAt_write_u64 f p _ i h

theorem read_u64_write_u64_self (f : File) (p v : Nat) :
    (f.write_u64 p v).read_u64 p = v % 2 ^ 64 := by
  unfold read_u64 write_u64
  show leBytesToU64 (readBytes (writeBytes f.data p (u64ToLeBytes v)) p 8) = v % 2 ^ 64
  have h8 : (8 : Nat) = (u64ToLeBytes v).length := (length_u64ToLeBytes v).symm
  rw [h8, readBytes_writeBytes_self, leBytesToU64_u64ToLeBytes]

theorem read_u64_write_u64_self_of_lt (f : File) (p v : Nat) (hv : v < 2 ^ 64) :
    (f.write_u64 p v).read_u64 p = v := by
  rw [read_u64_write_u64_self]
  omega

theorem read_u64_congr (f1 f2 : File) (p : Nat)
    (h : ∀ i, p ≤ i → i < p + 8 → byteAt f1.data i = byteAt f2.data i) :
    f1.read_u64 p = f2.read_u64 p := by
  unfold read_u64
  rw [show (BYTES_IN_U64 : Nat) = 8 from rfl, readBytes_congr f1.data f2.data p 8 h]

theorem read_page_header_congr (f1 f2 : File) (p : Nat)
    (h : ∀ i, p ≤ i → i < p + 8 → byteAt f1.data i = byteAt f2.data i) :
    f1.read_page_header p = f2.read_page_header p := by
  unfold read_page_header
  rw [read_u64_congr f1 f2 p h]

theorem read_write_page_header_self (f : File) (p : Nat) (hd : PageHeader)
    (hv : hd.value < 2 ^ 62) :
    (f.write_page_header p hd).read_page_header p = hd := by
  unfold write_page_header read_page_header
  rw [read_u64_write_u64_self_of_lt _ _ _ (PageHeader.to_u64_lt hd hv)]
  exact PageHeader.from_u64_to_u64 hd hv

theorem first_free_page_congr (f1 f2 : File) (hc : f1.config = f2.config)
    (h : ∀ i, f1.first_free_page_ptr ≤ i → i < f1.first_free_page_ptr + 8 →
      byteAt f1.data i = byteAt f2.data i) :
    f1.first_free_page = f2.first_free_page := by
  unfold first_free_page
  have hp : f1.first_free_page_ptr = f2.first_free_page_ptr := by
    unfold first_free_page_ptr magic_bytes_ptr
    rw [hc]
  rw [← hp]
  exact read_u64_congr f1 f2 _ h

theorem root_page_congr (f1 f2 : File) (hc : f1.config = f2.config)
    (h : ∀ i, f1.root_page_ptr ≤ i → i < f1.root_page_ptr + 8 →
      byteAt f1.data i = byteAt f2.data i) :
    f1.root_page = f2.root_page := by
  unfold root_page
  have hp : f1.root_page_ptr = f2.root_page_ptr := by
    unfold root_page_ptr first_free_page_ptr magic_bytes_ptr
    rw [hc]
  rw [← hp]
  exact read_u64_congr f1 f2 _ h

theorem header_size_eq (f : File) : f.header_size = f.config.header_size := rfl

theorem total_page_size_eq (f : File) : f.total_page_size = f.config.total_page_size := rfl

theorem first_free_page_ptr_eq (f : File) :
    f.first_free_page_ptr = f.config.magic_bytes.length := by
  unfold first_free_page_ptr magic_bytes_ptr
  omega

theorem root_page_ptr_eq (f : File) :
    f.root_page_ptr = f.config.magic_bytes.length + 8 := by
  unfold root_page_ptr
  rw [first_free_page_ptr_eq]
  rfl

end File

theorem PagePtr.pos (c : Config) (p len : Nat) (h : PagePtr c p len) : 0 < p := by
  have := h.hs_le
  unfold Config.header_size at this
  unfold BYTES_IN_U64 at this
  omega

theorem PagePtr.exists_index (c : Config) (p len : Nat) (h : PagePtr c p len) :
    ∃ a, p = c.header_size + c.total_page_size * a := by
  have hdvd : c.total_page_size ∣ (p - c.header_size) := Nat.dvd_of_mod_eq_zero h.aligned
  obtain ⟨a, ha⟩ := hdvd
  exact ⟨a, by have := h.hs_le; omega⟩

/-- Two distinct pages of the same file occupy disjoint byte regions. -/
theorem PagePtr.region_disjoint (c : Config) (p q len : Nat)
    (hp : PagePtr c p len) (hq : PagePtr c q len) (hne : p ≠ q) :
    p + c.total_page_size ≤ q ∨ q + c.total_page_size ≤ p := by
  obtain ⟨a, ha⟩ := hp.exists_index
  obtain ⟨b, hb⟩ := hq.exists_index
  have hT : 0 < c.total_page_size := by
    unfold Config.total_page_size BYTES_IN_U64
    omega
  rcases Nat.lt_trichotomy a b with hab | hab | hab
  · left
    have : c.total_page_size * (a + 1) ≤ c.total_page_size * b :=
      Nat.mul_le_mul_left _ (by omega)
    calc p + c.total_page_size = c.header_size + c.total_page_size * (a + 1) := by
          rw [ha]; ring
      _ ≤ c.header_size + c.total_page_size * b := by omega
      _ = q := hb.symm
  · exact absurd (by rw [ha, hb, hab]) hne
  · right
    have : c.total_page_size * (b + 1) ≤ c.total_page_size * a :=
      Nat.mul_le_mul_left _ (by omega)
    calc q + c.total_page_size = c.header_size + c.total_page_size * (b + 1) := by
          rw [hb]; ring
      _ ≤ c.header_size + c.total_page_size * a := by omega
      _ = p := ha.symm

/-- A page region lies beyond both 8-byte slots of the fixed header. -/
theorem PagePtr.above_header (c : Config) (p len : Nat) (h : PagePtr c p len) :
    c.magic_bytes.length + 2 * 8 ≤ p := by
  have := h.hs_le
  unfold Config.header_size BYTES_IN_U64 at this
  omega

theorem Chain.head_cons (f : File) (ptr : Nat) (pages : List Nat) (h : Chain f ptr pages) :
    ∃ rest, pages = ptr :: rest := by
  cases h with
  | final ptr n hn hhdr => exact ⟨[], rfl⟩
  | next ptr nxt rest hhdr hrest => exact ⟨rest, rfl⟩

theorem Chain.head_mem (f : File) (ptr : Nat) (pages : List Nat) (h : Chain f ptr pages) :
    ptr ∈ pages := by
  obtain ⟨rest, hr⟩ := h.head_cons
  simp [hr]

theorem Chain.ne_nil (f : File) (ptr : Nat) (pages : List Nat) (h : Chain f ptr pages) :
    pages ≠ [] := by
  obtain ⟨rest, hr⟩ := h.head_cons
  simp [hr]

theorem ChainW.head_cons_w (f : File) (ptr : Nat) (pages data : List Nat)
    (h : ChainW f ptr pages data) : ∃ rest, pages = ptr :: rest := by
  cases h with
  | last ptr data hlen hhdr hdata => exact ⟨[], rfl⟩
  | cons ptr nxt rest data hlen hhdr hdata hrest => exact ⟨rest, rfl⟩

theorem ChainW.head_mem_w (f : File) (ptr : Nat) (pages data : List Nat)
    (h : ChainW f ptr pages data) : ptr ∈ pages := by
  obtain ⟨rest, hr⟩ := h.head_cons_w
  simp [hr]

/-- The header at the head of an active chain is never `DeletedPage`. -/
theorem Chain.head_not_deleted (f : File) (ptr : Nat) (pages : List Nat)
    (h : Chain f ptr pages) (v : Nat) : f.read_page_header ptr ≠ .DeletedPage v := by
  cases h with
  | final ptr n hn hhdr => simp [hhdr]
  | next ptr nxt rest hhdr hrest => simp [hhdr]

theorem ChainW.head_not_deleted_w (f : File) (ptr : Nat) (pages data : List Nat)
    (h : ChainW f ptr pages data) (v : Nat) : f.read_page_header ptr ≠ .DeletedPage v := by
  cases h with
  | last ptr data hlen hhdr hdata => simp [hhdr]
  | cons ptr nxt rest data hlen hhdr hdata hrest => simp [hhdr]

theorem FreeChain.head_eq_zero (f : File) (h : Nat) (hfc : FreeChain f h []) : h = 0 := by
  cases hfc
  rfl

theorem FreeChain.head_eq (f : File) (h p : Nat) (rest : List Nat)
    (hfc : FreeChain f h (p :: rest)) :
    h = p ∧ p ≠ 0 ∧ ∃ nxt, f.read_page_header p = .DeletedPage nxt ∧ FreeChain f nxt rest := by
  cases hfc with
  | cons p nxt rest hp hhdr hrest => exact ⟨rfl, hp, nxt, hhdr, hrest⟩

theorem FreeChain.mem_deleted (f : File) (h : Nat) (FL : List Nat) (hfc : FreeChain f h FL) :
    ∀ p ∈ FL, ∃ nxt, f.read_page_header p = .DeletedPage nxt := by
  induction hfc with
  | nil => intro p hp; cases hp
  | cons q nxt rest hq hhdr hrest ih =>
      intro p hp
      rcases List.mem_cons.mp hp with hpq | hpr
      · exact ⟨nxt, hpq ▸ hhdr⟩
      · exact ih p hpr

/-! Congruence: the chain predicates only look at the bytes of their own
page regions, so they transfer between files that agree there. -/
theorem Chain_congr (f1 f2 : File) (ptr : Nat) (pages : List Nat)
    (hc : f2.config = f1.config)
    (h : Chain f1 ptr pages)
    (hbytes : ∀ p ∈ pages, ∀ i, p ≤ i → i < p + f1.config.total_page_size →
      byteAt f2.data i = byteAt f1.data i) :
    Chain f2 ptr pages := by
  induction h with
  | final ptr n hn hhdr =>
      have hT : 8 ≤ f1.config.total_page_size := by
        unfold Config.total_page_size BYTES_IN_U64; omega
      have hh : f2.read_page_header ptr = f1.read_page_header ptr :=
        File.read_page_header_congr f2 f1 ptr (fun i h1 h2 =>
          hbytes ptr (by simp) i h1 (by omega))
      exact Chain.final ptr n (by rw [hc]; exact hn) (by rw [hh]; exact hhdr)
  | next ptr nxt rest hhdr hrest ih =>
      have hT : 8 ≤ f1.config.total_page_size := by
        unfold Config.total_page_size BYTES_IN_U64; omega
      have hh : f2.read_page_header ptr = f1.read_page_header ptr :=
        File.read_page_header_congr f2 f1 ptr (fun i h1 h2 =>
          hbytes ptr (by simp) i h1 (by omega))
      exact Chain.next ptr nxt rest (by rw [hh]; exact hhdr)
        (ih (fun p hp i h1 h2 => hbytes p (by simp [hp]) i h1 h2))

theorem ChainW_congr (f1 f2 : File) (ptr : Nat) (pages data : List Nat)
    (hc : f2.config = f1.config)
    (h : ChainW f1 ptr pages data)
    (hbytes : ∀ p ∈ pages, ∀ i, p ≤ i → i < p + f1.config.total_page_size →
      byteAt f2.data i = byteAt f1.data i) :
    ChainW f2 ptr pages data := by
  induction h with
  | last ptr data hlen hhdr hdata =>
      have hT : 8 + data.length ≤ f1.config.total_page_size := by
        unfold Config.total_page_size BYTES_IN_U64; omega
      have hh : f2.read_page_header ptr = f1.read_page_header ptr :=
        File.read_page_header_congr f2 f1 ptr (fun i h1 h2 =>
          hbytes ptr (by simp) i h1 (by omega))
      refine ChainW.last ptr data (by rw [hc]; exact hlen) (by rw [hh]; exact hhdr) ?_
      rw [readBytes_congr f2.data f1.data (ptr + 8) data.length (fun i h1 h2 =>
        hbytes ptr (by simp) i (by omega) (by omega))]
      exact hdata
  | cons ptr nxt rest data hlen hhdr hdata hrest ih =>
      have hT : 8 + f1.config.page_size ≤ f1.config.total_page_size := by
        unfold Config.total_page_size BYTES_IN_U64; omega
      have hh : f2.read_page_header ptr = f1.read_page_header ptr :=
        File.read_page_header_congr f2 f1 ptr (fun i h1 h2 =>
          hbytes ptr (by simp) i h1 (by omega))
      refine ChainW.cons ptr nxt rest data (by rw [hc]; exact hlen) (by rw [hh]; exact hhdr)
        ?_ ?_
      · rw [hc, readBytes_congr f2.data f1.data (ptr + 8) f1.config.page_size (fun i h1 h2 =>
          hbytes ptr (by simp) i (by omega) (by omega))]
        exact hdata
      · rw [hc]
        exact ih (fun p hp i h1 h2 => hbytes p (by simp [hp]) i h1 h2)

theorem FreeChain_congr (f1 f2 : File) (h : Nat) (FL : List Nat)
    (hfc : FreeChain f1 h FL)
    (hbytes : ∀ p ∈ FL, ∀ i, p ≤ i → i < p + 8 → byteAt f2.data i = byteAt f1.data i) :
    FreeChain f2 h FL := by
  induction hfc with
  | nil => exact FreeChain.nil
  | cons p nxt rest hp hhdr hrest ih =>
      have hh : f2.read_page_header p = f1.read_page_header p :=
        File.read_page_header_congr f2 f1 p (fun i h1 h2 =>
          hbytes p (by simp) i h1 h2)
      exact FreeChain.cons p nxt rest hp (by rw [hh]; exact hhdr)
        (ih (fun q hq i h1 h2 => hbytes q (by simp [hq]) i h1 h2))

/-- Pointer-shape validity plus length alignment puts the whole page in
bounds. -/
theorem PagePtr.of_shape (f : File) (p : Nat) (hwf : WFcore f)
    (h1 : f.header_size ≤ p) (h2 : (p - f.header_size) % f.total_page_size = 0)
    (h3 : p < f.data.length) : PagePtr f.config p f.data.length := by
  have hT : 0 < f.config.total_page_size := by
    unfold Config.total_page_size BYTES_IN_U64; omega
  have hhs : f.header_size = f.config.header_size := rfl
  have htp : f.total_page_size = f.config.total_page_size := rfl
  obtain ⟨a, ha⟩ : ∃ a, p = f.config.header_size + f.config.total_page_size * a := by
    obtain ⟨a, ha⟩ := Nat.dvd_of_mod_eq_zero (htp ▸ h2)
    exact ⟨a, by rw [hhs] at h1; omega⟩
  obtain ⟨b, hb⟩ : ∃ b, f.data.length = f.config.header_size + f.config.total_page_size * b := by
    obtain ⟨b, hb⟩ := Nat.dvd_of_mod_eq_zero (htp ▸ hwf.lenAligned)
    have := hwf.lenLB
    rw [hhs] at this
    exact ⟨b, by omega⟩
  have hab : a < b := by
    by_contra hab
    have : f.config.total_page_size * b ≤ f.config.total_page_size * a :=
      Nat.mul_le_mul_left _ (by omega)
    omega
  refine ⟨hhs ▸ h1, htp ▸ h2, ?_⟩
  have : f.config.total_page_size * (a + 1) ≤ f.config.total_page_size * b :=
    Nat.mul_le_mul_left _ (by omega)
  calc p + f.config.total_page_size
      = f.config.header_size + f.config.total_page_size * (a + 1) := by rw [ha]; ring
    _ ≤ f.config.header_size + f.config.total_page_size * b := by omega
    _ = f.data.length := hb.symm

/-- A valid page pointer with a non-deleted header passes validation. -/
theorem check_ok_of_page (f : File) (ptr : Nat)
    (hp : PagePtr f.config ptr f.data.length)
    (hnd : ∀ v, f.read_page_header ptr ≠ .DeletedPage v) :
    f.check_if_pointer_valid ptr = .ok () := by
  have hT : 0 < f.config.total_page_size := by
    unfold Config.total_page_size BYTES_IN_U64; omega
  have h1 : ¬ (ptr < f.header_size ∨ (ptr - f.header_size) % f.total_page_size ≠ 0) := by
    push_neg
    exact ⟨hp.hs_le, hp.aligned⟩
  have h2 : ¬ (f.file_size ≤ ptr) := by
    unfold File.file_size
    have := hp.in_bounds
    omega
  unfold File.check_if_pointer_valid
  rw [if_neg h1, if_neg h2]
  cases hh : f.read_page_header ptr with
  | NextPage n => simp
  | FinalPage n => simp
  | DeletedPage n => exact absurd hh (hnd n)

theorem read_page_header_value_lt (f : File) (p : Nat) :
    (f.read_page_header p).value < 2 ^ 62 :=
  PageHeader.from_u64_value_lt _

theorem FreeChain.zero_nil (f : File) (FL : List Nat) (h : FreeChain f 0 FL) : FL = [] := by
  cases h with
  | nil => rfl
  | cons p nxt rest hp hhdr hrest => exact absurd rfl hp

/-- What `alloc` does on a file with a well-formed free list. -/
theorem alloc_spec (f : File) (FL : List Nat) (hwf : WFcore f) (hfree : FreeOK f FL)
    (hroom : f.data.length + f.total_page_size < 2 ^ 62) :
    ∃ h f1 FL1, f.alloc = .ok h f1 ∧
      f1.config = f.config ∧
      f.data.length ≤ f1.data.length ∧ f1.data.length ≤ f.data.length + f.total_page_size ∧
      WFcore f1 ∧
      PagePtr f.config h f1.data.length ∧
      f1.read_page_header h = .FinalPage 0 ∧
      (h ∈ FL ∨ h = f.data.length) ∧
      FreeOK f1 FL1 ∧ (∀ p, p ∈ FL1 ↔ (p ∈ FL ∧ p ≠ h)) ∧
      (∀ p ∈ FL1, PagePtr f.config p f.data.length) ∧
      (∀ i, i < f.data.length → (i < h ∨ h + f.total_page_size ≤ i) →
        (i < f.first_free_page_ptr ∨ f.first_free_page_ptr + 8 ≤ i) →
        byteAt f1.data i = byteAt f.data i) := by
  have hT8 : f.total_page_size = 8 + f.config.page_size := rfl
  have hTc : f.total_page_size = f.config.total_page_size := rfl
  have hHS : f.header_size = f.config.magic_bytes.length + 16 := by
    unfold File.header_size BYTES_IN_U64; omega
  have hslot : f.first_free_page_ptr = f.config.magic_bytes.length := f.first_free_page_ptr_eq
  by_cases hz : f.first_free_page = 0
  · -- the free list is empty: extend the file by one page stride
    have hFLnil : FL = [] := FreeChain.zero_nil f FL (hz ▸ hfree.chain)
    set len := f.data.length with hlen
    set fA : File := ⟨writeBytes f.data len (List.replicate f.total_page_size 255), f.config⟩
      with hfA
    set f1 := fA.write_page_header len (.FinalPage 0) with hf1
    have halloc : f.alloc = .ok len f1 := by
      unfold File.alloc
      rw [hz]
      rfl
    have hlenA : fA.data.length = len + f.total_page_size := by
      simp [hfA]
    have hlen1 : f1.data.length = len + f.total_page_size := by
      rw [hf1]
      unfold File.write_page_header File.write_u64
      simp only [length_writeBytes, length_u64ToLeBytes, List.length_replicate]
      omega
    have hbyteA : ∀ i, i < len → byteAt fA.data i = byteAt f.data i := by
      intro i hi
      exact byteAt_writeBytes_lo _ _ _ _ (Or.inl hi)
    have hbyte1 : ∀ i, i < len → byteAt f1.data i = byteAt f.data i := by
      intro i hi
      rw [hf1]
      rw [File.byteAt_write_page_header _ _ _ _ (Or.inl hi)]
      exact hbyteA i hi
    have hpage : PagePtr f.config len f1.data.length := by
      refine ⟨?_, ?_, ?_⟩
      · rw [← File.header_size_eq]; exact hwf.lenLB
      · rw [← File.header_size_eq, ← hTc]; exact hwf.lenAligned
      · rw [hlen1, ← hTc]
    have hslotpres : f1.first_free_page = f.first_free_page := by
      apply File.first_free_page_congr
      · rfl
      · intro i h1 h2
        apply hbyte1
        show i < len
        have := hwf.lenLB
        rw [hHS] at this
        have hsl : f1.first_free_page_ptr = f.config.magic_bytes.length := by
          show (⟨_, f.config⟩ : File).first_free_page_ptr = _
          rw [File.first_free_page_ptr_eq]
        omega
    refine ⟨len, f1, [], halloc, rfl, by omega, by omega, ?_, hpage, ?_, Or.inr rfl, ?_, ?_, ?_, ?_⟩
    · -- WFcore f1
      refine ⟨hwf.psPos, ?_, ?_, ?_⟩
      · show f1.header_size ≤ f1.data.length
        have h1 : f1.header_size = f.header_size := rfl
        have := hwf.lenLB
        rw [h1, hlen1]
        omega
      · show (f1.data.length - f1.header_size) % f1.total_page_size = 0
        have h1 : f1.header_size = f.header_size := rfl
        have h2 : f1.total_page_size = f.total_page_size := rfl
        rw [h1, h2, hlen1]
        have hhl := hwf.lenLB
        have : len + f.total_page_size - f.header_size
            = (len - f.header_size) + f.total_page_size := by omega
        rw [this, Nat.add_mod_right]
        exact hwf.lenAligned
      · show f1.data.length < 2 ^ 62
        rw [hlen1]
        omega
    · -- header of the fresh page
      rw [hf1]
      exact fA.read_write_page_header_self len (.FinalPage 0) (by norm_num [PageHeader.value])
    · -- FreeOK f1 []
      refine ⟨?_, List.nodup_nil, by simp⟩
      rw [hslotpres, hz]
      exact FreeChain.nil
    · simp [hFLnil]
    · simp
    · intro i hi _ _
      exact hbyte1 i hi
  · -- pop the head of the free list
    obtain ⟨p0, FLrest, hFLcons⟩ : ∃ p0 rest, FL = p0 :: rest := by
      cases hFL : FL with
      | nil => exact absurd (FreeChain.head_eq_zero f _ (hFL ▸ hfree.chain)) hz
      | cons p0 rest => exact ⟨p0, rest, rfl⟩
    obtain ⟨hh0, hp0ne, nxt, hhdr0, hrest0⟩ := FreeChain.head_eq f _ p0 FLrest (hFLcons ▸ hfree.chain)
    have hp0 : PagePtr f.config p0 f.data.length := hfree.valid p0 (by simp [hFLcons])
    have hnxtlt : nxt < 2 ^ 62 := by
      have := read_page_header_value_lt f p0
      rw [hhdr0] at this
      exact this
    set fA := f.write_u64 f.first_free_page_ptr nxt with hfA
    set f1 := fA.write_page_header p0 (.FinalPage 0) with hf1
    have halloc : f.alloc = .ok p0 f1 := by
      unfold File.alloc
      rw [← hh0]
      simp only [hz, if_false]
      rw [hh0, hhdr0]
    have hslot_lt : f.first_free_page_ptr + 8 ≤ p0 := by
      have := hp0.above_header
      omega
    have hlenA : fA.data.length = f.data.length := by
      rw [hfA]
      simp only [File.length_write_u64]
      have h1 : f.first_free_page_ptr + 8 ≤ f.data.length := by
        have := hwf.lenLB
        rw [hHS] at this
        omega
      omega
    have hlen1 : f1.data.length = f.data.length := by
      rw [hf1]
      unfold File.write_page_header File.write_u64
      simp only [length_writeBytes, length_u64ToLeBytes]
      have := hp0.in_bounds
      rw [← hTc] at this
      omega
    have hbyte1 : ∀ i, (i < p0 ∨ p0 + 8 ≤ i) →
        (i < f.first_free_page_ptr ∨ f.first_free_page_ptr + 8 ≤ i) →
        byteAt f1.data i = byteAt f.data i := by
      intro i h1 h2
      rw [hf1, File.byteAt_write_page_header _ _ _ _ h1, hfA, File.byteAt_write_u64 _ _ _ _ h2]
    have hhdr1 : f1.read_page_header p0 = .FinalPage 0 := by
      rw [hf1]
      exact fA.read_write_page_header_self p0 (.FinalPage 0) (by norm_num [PageHeader.value])
    have hffp1 : f1.first_free_page = nxt := by
      have h1 : f1.first_free_page_ptr = f.first_free_page_ptr := rfl
      unfold File.first_free_page
      rw [h1]
      have h2 : f1.read_u64 f.first_free_page_ptr = fA.read_u64 f.first_free_page_ptr := by
        apply File.read_u64_congr
        intro i hi1 hi2
        rw [hf1]
        apply File.byteAt_write_page_header
        left
        omega
      rw [h2, hfA, File.read_u64_write_u64_self_of_lt _ _ _ (by omega)]
    have hnodup := hfree.nodup
    rw [hFLcons] at hnodup
    have hp0notin : p0 ∉ FLrest := (List.nodup_cons.mp hnodup).1
    refine ⟨p0, f1, FLrest, halloc, rfl, by omega, by omega, ?_, ?_, hhdr1,
      Or.inl (by simp [hFLcons]), ?_, ?_, ?_, ?_⟩
    · -- WFcore f1
      refine ⟨hwf.psPos, ?_, ?_, ?_⟩
      · show f1.header_size ≤ f1.data.length
        rw [hlen1]
        exact hwf.lenLB
      · show (f1.data.length - f1.header_size) % f1.total_page_size = 0
        rw [hlen1]
        exact hwf.lenAligned
      · rw [hlen1]
        exact hwf.lenBound
    · exact hlen1 ▸ hp0
    · -- FreeOK f1 FLrest
      refine ⟨?_, (List.nodup_cons.mp hnodup).2, ?_⟩
      · rw [hffp1]
        apply FreeChain_congr f f1 nxt FLrest hrest0
        intro q hq i hi1 hi2
        apply hbyte1
        · -- i is inside page q's header, q ≠ p0
          have hq' : PagePtr f.config q f.data.length := hfree.valid q (by simp [hFLcons, hq])
          have hne : q ≠ p0 := fun hqe => hp0notin (hqe ▸ hq)
          rcases PagePtr.region_disjoint f.config q p0 f.data.length hq' hp0 hne with hd | hd
          · left
            have : 8 ≤ f.config.total_page_size := by rw [← hTc]; omega
            omega
          · right
            rw [← hTc] at hd
            omega
        · -- i is inside page q's header, above the free-list slot
          have hq' : PagePtr f.config q f.data.length := hfree.valid q (by simp [hFLcons, hq])
          have := hq'.above_header
          right
          omega
      · intro q hq
        rw [hlen1]
        exact hfree.valid q (by simp [hFLcons, hq])
    · intro q
      simp only [hFLcons, List.mem_cons]
      constructor
      · intro hq
        exact ⟨Or.inr hq, fun hqe => hp0notin (hqe ▸ hq)⟩
      · rintro ⟨hq | hq, hne⟩
        · exact absurd hq hne
        · exact hq
    · intro q hq
      exact hfree.valid q (by simp [hFLcons, hq])
    · intro i _ h1 h2
      apply hbyte1
      · rcases h1 with h1 | h1
        · left; omega
        · right; omega
      · exact h2

/-- Transfer `WFcore` along equal configuration and length. -/
theorem WFcore_of_eq (f f1 : File) (hwf : WFcore f) (hc : f1.config = f.config)
    (hl : f1.data.length = f.data.length) : WFcore f1 := by
  have h1 : f1.header_size = f.header_size := by
    unfold File.header_size
    rw [hc]
  have h2 : f1.total_page_size = f.total_page_size := by
    unfold File.total_page_size
    rw [hc]
  exact ⟨by rw [hc]; exact hwf.psPos, by rw [h1, hl]; exact hwf.lenLB,
    by rw [h1, h2, hl]; exact hwf.lenAligned, by rw [hl]; exact hwf.lenBound⟩

theorem deleteLoop_succ_eq (fuel : Nat) (f : File) (ptr : Nat) :
    File.deleteLoop (fuel + 1) f ptr =
      match f.read_page_header ptr with
      | .NextPage next => File.deleteLoop fuel (f.deletePush ptr) next
      | .FinalPage _ => .ok () (f.deletePush ptr)
      | .DeletedPage _ => .err .CorruptedFile (f.deletePush ptr) := rfl

/-- The effect of one push step on a well-formed state. -/
theorem deletePush_spec (f : File) (ptr : Nat) (FL : List Nat) (hwf : WFcore f)
    (hfree : FreeOK f FL) (hptr : PagePtr f.config ptr f.data.length) (hnotin : ptr ∉ FL) :
    (f.deletePush ptr).config = f.config ∧
    (f.deletePush ptr).data.length = f.data.length ∧
    (f.deletePush ptr).first_free_page = ptr ∧
    FreeOK (f.deletePush ptr) (ptr :: FL) ∧
    (∀ i, (i < ptr ∨ ptr + f.total_page_size ≤ i) →
      (i < f.first_free_page_ptr ∨ f.first_free_page_ptr + 8 ≤ i) →
      byteAt (f.deletePush ptr).data i = byteAt f.data i) := by
  have hT8 : f.total_page_size = 8 + f.config.page_size := rfl
  have hTc : f.total_page_size = f.config.total_page_size := rfl
  have hHS : f.header_size = f.config.magic_bytes.length + 16 := by
    unfold File.header_size BYTES_IN_U64; omega
  have hslot : f.first_free_page_ptr = f.config.magic_bytes.length := f.first_free_page_ptr_eq
  have hhs_le : f.config.magic_bytes.length + 16 ≤ ptr := by
    have := hptr.above_header; omega
  have hinb : ptr + f.total_page_size ≤ f.data.length := by
    rw [hTc]; exact hptr.in_bounds
  have hlenLB := hwf.lenLB
  rw [hHS] at hlenLB
  have hfree0lt : f.first_free_page < 2 ^ 62 := by
    cases hFL : FL with
    | nil =>
        have := FreeChain.head_eq_zero f _ (hFL ▸ hfree.chain)
        omega
    | cons q rest =>
        obtain ⟨hq, _, _⟩ := FreeChain.head_eq f _ q rest (hFL ▸ hfree.chain)
        have hqp := hfree.valid q (by simp [hFL])
        have := hqp.in_bounds
        have := hwf.lenBound
        omega
  set free0 := f.first_free_page with hfree0
  set f1 := f.write_page_header ptr (.DeletedPage free0) with hf1
  set f2 := f1.write_u64 f1.first_free_page_ptr ptr with hf2
  set f3 : File := ⟨writeBytes f2.data (ptr + BYTES_IN_U64) (List.replicate f.config.page_size 255),
    f.config⟩ with hf3
  have hpush : f.deletePush ptr = f3 := by
    rw [hf3, hf2, hf1, hfree0]
    rfl
  have hc1 : f1.config = f.config := by rw [hf1]; rfl
  have hslot1 : f1.first_free_page_ptr = f.first_free_page_ptr := by
    rw [File.first_free_page_ptr_eq, File.first_free_page_ptr_eq, hc1]
  have hlen1 : f1.data.length = f.data.length := by
    rw [hf1]
    unfold File.write_page_header File.write_u64
    simp only [length_writeBytes, length_u64ToLeBytes]
    omega
  have hlen2 : f2.data.length = f.data.length := by
    rw [hf2]
    unfold File.write_u64
    simp only [length_writeBytes, length_u64ToLeBytes]
    rw [hslot1, hslot, hlen1]
    omega
  have hlen3 : f3.data.length = f.data.length := by
    rw [hf3]
    simp only [length_writeBytes, List.length_replicate, hlen2]
    show max f.data.length (ptr + BYTES_IN_U64 + f.config.page_size) = f.data.length
    unfold BYTES_IN_U64
    omega
  have hframe : ∀ i, (i < ptr ∨ ptr + f.total_page_size ≤ i) →
      (i < f.first_free_page_ptr ∨ f.first_free_page_ptr + 8 ≤ i) →
      byteAt f3.data i = byteAt f.data i := by
    intro i h1 h2
    have e3 : byteAt f3.data i = byteAt f2.data i := by
      rw [hf3]
      show byteAt (writeBytes f2.data (ptr + BYTES_IN_U64) _) i = byteAt f2.data i
      apply byteAt_writeBytes_lo
      simp only [List.length_replicate]
      unfold BYTES_IN_U64
      omega
    have e2 : byteAt f2.data i = byteAt f1.data i := by
      rw [hf2]
      apply File.byteAt_write_u64
      rw [hslot1]
      exact h2
    have e1 : byteAt f1.data i = byteAt f.data i := by
      rw [hf1]
      apply File.byteAt_write_page_header
      omega
    rw [e3, e2, e1]
  have hhdr3 : f3.read_page_header ptr = .DeletedPage free0 := by
    have e1 : f1.read_page_header ptr = .DeletedPage free0 :=
      f.read_write_page_header_self ptr _ (by simpa [PageHeader.value] using hfree0lt)
    have e31 : f3.read_page_header ptr = f1.read_page_header ptr := by
      apply File.read_page_header_congr
      intro i hi1 hi2
      have e3 : byteAt f3.data i = byteAt f2.data i := by
        rw [hf3]
        show byteAt (writeBytes f2.data (ptr + BYTES_IN_U64) _) i = byteAt f2.data i
        apply byteAt_writeBytes_lo
        unfold BYTES_IN_U64
        omega
      have e2 : byteAt f2.data i = byteAt f1.data i := by
        rw [hf2]
        apply File.byteAt_write_u64
        rw [hslot1, hslot]
        right
        omega
      rw [e3, e2]
    rw [e31, e1]
  have hffp3 : f3.first_free_page = ptr := by
    have hc3 : f3.config = f.config := by rw [hf3]
    have hsl3 : f3.first_free_page_ptr = f.first_free_page_ptr := by
      rw [File.first_free_page_ptr_eq, File.first_free_page_ptr_eq, hc3]
    unfold File.first_free_page
    rw [hsl3]
    have e32 : f3.read_u64 f.first_free_page_ptr = f2.read_u64 f.first_free_page_ptr := by
      apply File.read_u64_congr
      intro i hi1 hi2
      rw [hf3]
      show byteAt (writeBytes f2.data (ptr + BYTES_IN_U64) _) i = byteAt f2.data i
      apply byteAt_writeBytes_lo
      rw [hslot] at hi2
      unfold BYTES_IN_U64
      omega
    rw [e32, hf2, hslot1]
    apply File.read_u64_write_u64_self_of_lt
    have := hwf.lenBound
    omega
  refine ⟨rfl, hpush ▸ hlen3, hpush ▸ hffp3, ?_, hpush ▸ hframe⟩
  rw [hpush]
  refine ⟨?_, ?_, ?_⟩
  · rw [hffp3]
    refine FreeChain.cons ptr free0 FL (by omega) hhdr3 ?_
    apply FreeChain_congr f f3 free0 FL hfree.chain
    intro q hq i hi1 hi2
    have hqp := hfree.valid q hq
    have hne : q ≠ ptr := fun he => hnotin (he ▸ hq)
    apply hframe
    · rcases PagePtr.region_disjoint f.config q ptr f.data.length hqp hptr hne with hd | hd
      · left
        rw [← hTc] at hd
        omega
      · right
        rw [← hTc] at hd
        omega
    · have := hqp.above_header
      right
      omega
  · rw [List.nodup_cons]
    exact ⟨hnotin, hfree.nodup⟩
  · intro q hq
    have hc3 : f3.config = f.config := rfl
    rw [hc3, hlen3]
    rcases List.mem_cons.mp hq with hq | hq
    · rw [hq]
      exact hptr
    · exact hfree.valid q hq

theorem deleteLoop_succ_next (fuel : Nat) (f : File) (ptr nxt : Nat)
    (h : f.read_page_header ptr = .NextPage nxt) :
    File.deleteLoop (fuel + 1) f ptr = File.deleteLoop fuel (f.deletePush ptr) nxt := by
  rw [deleteLoop_succ_eq, h]

theorem deleteLoop_succ_final (fuel : Nat) (f : File) (ptr n : Nat)
    (h : f.read_page_header ptr = .FinalPage n) :
    File.deleteLoop (fuel + 1) f ptr = .ok () (f.deletePush ptr) := by
  rw [deleteLoop_succ_eq, h]

/-- What a successful `deleteLoop` run over an active chain does: it pushes
the chain's pages onto the free list in visit order, so the free list ends
up holding them in reverse visit order, headed by the chain's last page. -/
theorem deleteLoop_ok :
    ∀ (pages : List Nat) (fuel : Nat) (f : File) (ptr : Nat) (FL : List Nat) (f' : File),
    WFcore f → Chain f ptr pages → pages.Nodup →
    (∀ p ∈ pages, PagePtr f.config p f.data.length) →
    FreeOK f FL → (∀ p ∈ pages, p ∉ FL) →
    File.deleteLoop fuel f ptr = .ok () f' →
    f'.config = f.config ∧ f'.data.length = f.data.length ∧
    FreeOK f' (pages.reverse ++ FL) ∧
    pages.getLast? = some f'.first_free_page ∧
    (∀ i, (∀ p ∈ pages, i < p ∨ p + f.total_page_size ≤ i) →
      (i < f.first_free_page_ptr ∨ f.first_free_page_ptr + 8 ≤ i) →
      byteAt f'.data i = byteAt f.data i) := by
  intro pages
  induction pages with
  | nil =>
      intro fuel f ptr FL f' hwf hch
      cases hch
  | cons p rest ih =>
      intro fuel f ptr FL f' hwf hch hnd hval hfree hdisj hrun
      have hmem : ptr ∈ p :: rest := hch.head_mem
      have hptrp : PagePtr f.config ptr f.data.length := hval ptr hmem
      cases fuel with
      | zero => exact absurd hrun (by simp [File.deleteLoop])
      | succ k =>
        obtain ⟨hc3, hlen3, hffp3, hfok3, hframe3⟩ :=
          deletePush_spec f ptr FL hwf hfree hptrp (hdisj ptr hmem)
        cases hch with
        | final ptr0 n hn hhdr =>
            rw [deleteLoop_succ_final k f p n hhdr] at hrun
            have hf' : f.deletePush p = f' := ((MRes.ok.injEq _ _ _ _).mp hrun).2
            subst hf'
            refine ⟨hc3, hlen3, ?_, ?_, ?_⟩
            · simpa using hfok3
            · simp [hffp3]
            · intro i h1 h2
              exact hframe3 i (h1 p (by simp)) h2
        | next ptr0 nxt rest0 hhdr hrest =>
            rw [deleteLoop_succ_next k f p nxt hhdr] at hrun
            have hTg : (f.deletePush p).total_page_size = f.total_page_size := by
              unfold File.total_page_size
              rw [hc3]
            have hSg : (f.deletePush p).first_free_page_ptr = f.first_free_page_ptr := by
              rw [File.first_free_page_ptr_eq, File.first_free_page_ptr_eq, hc3]
            have hptr_notin : p ∉ rest := (List.nodup_cons.mp hnd).1
            have hbytes_rest : ∀ q ∈ rest, ∀ i, q ≤ i → i < q + f.config.total_page_size →
                byteAt (f.deletePush p).data i = byteAt f.data i := by
              intro q hq i hi1 hi2
              have hqp : PagePtr f.config q f.data.length := hval q (by simp [hq])
              have hne : q ≠ p := fun he => hptr_notin (he ▸ hq)
              apply hframe3 i
              · rcases PagePtr.region_disjoint f.config q p f.data.length hqp hptrp hne
                  with hd | hd
                · left
                  have h8 : 8 ≤ f.config.total_page_size := by
                    unfold Config.total_page_size BYTES_IN_U64
                    omega
                  show i < p
                  have := hqp.in_bounds
                  omega
                · right
                  show p + f.total_page_size ≤ i
                  rw [File.total_page_size_eq]
                  omega
              · have := hqp.above_header
                rw [File.first_free_page_ptr_eq]
                right
                omega
            have hch3 : Chain (f.deletePush p) nxt rest :=
              Chain_congr f (f.deletePush p) nxt rest hc3 hrest hbytes_rest
            have hval3 : ∀ q ∈ rest, PagePtr (f.deletePush p).config q
                (f.deletePush p).data.length := by
              intro q hq
              rw [hc3, hlen3]
              exact hval q (by simp [hq])
            have hdisj3 : ∀ q ∈ rest, q ∉ p :: FL := by
              intro q hq
              rw [List.mem_cons]
              push_neg
              exact ⟨fun he => hptr_notin (he ▸ hq), hdisj q (by simp [hq])⟩
            obtain ⟨hc', hlen', hfok', hlast', hframe'⟩ :=
              ih k (f.deletePush p) nxt (p :: FL) f'
                (WFcore_of_eq f _ hwf hc3 hlen3) hch3 (List.nodup_cons.mp hnd).2
                hval3 hfok3 hdisj3 hrun
            have hrw : (p :: rest).reverse ++ FL = rest.reverse ++ (p :: FL) := by
              simp
            refine ⟨hc'.trans hc3, hlen'.trans hlen3, hrw ▸ hfok', ?_, ?_⟩
            · obtain ⟨rest2, hrest2⟩ := hrest.head_cons
              subst hrest2
              rw [List.getLast?_cons_cons]
              exact hlast'
            · intro i h1 h2
              have e1 : byteAt f'.data i = byteAt (f.deletePush p).data i := by
                apply hframe' i
                · intro q hq
                  rw [hTg]
                  exact h1 q (by simp [hq])
                · rw [hSg]
                  exact h2
              rw [e1]
              exact hframe3 i (h1 p (by simp)) h2

/-- `deleteLoop` succeeds on any active chain given fuel for its length. -/
theorem deleteLoop_total :
    ∀ (pages : List Nat) (fuel : Nat) (f : File) (ptr : Nat) (FL : List Nat),
    WFcore f → Chain f ptr pages → pages.Nodup →
    (∀ p ∈ pages, PagePtr f.config p f.data.length) →
    FreeOK f FL → (∀ p ∈ pages, p ∉ FL) →
    pages.length ≤ fuel →
    ∃ f', File.deleteLoop fuel f ptr = .ok () f' := by
  intro pages
  induction pages with
  | nil =>
      intro fuel f ptr FL hwf hch
      cases hch
  | cons p rest ih =>
      intro fuel f ptr FL hwf hch hnd hval hfree hdisj hfuel
      have hmem : ptr ∈ p :: rest := hch.head_mem
      have hptrp : PagePtr f.config ptr f.data.length := hval ptr hmem
      cases fuel with
      | zero => simp at hfuel
      | succ k =>
        obtain ⟨hc3, hlen3, hffp3, hfok3, hframe3⟩ :=
          deletePush_spec f ptr FL hwf hfree hptrp (hdisj ptr hmem)
        cases hch with
        | final ptr0 n hn hhdr =>
            rw [deleteLoop_succ_final k f p n hhdr]
            exact ⟨f.deletePush p, rfl⟩
        | next ptr0 nxt rest0 hhdr hrest =>
            rw [deleteLoop_succ_next k f p nxt hhdr]
            have hptr_notin : p ∉ rest := (List.nodup_cons.mp hnd).1
            have hbytes_rest : ∀ q ∈ rest, ∀ i, q ≤ i → i < q + f.config.total_page_size →
                byteAt (f.deletePush p).data i = byteAt f.data i := by
              intro q hq i hi1 hi2
              have hqp : PagePtr f.config q f.data.length := hval q (by simp [hq])
              have hne : q ≠ p := fun he => hptr_notin (he ▸ hq)
              apply hframe3 i
              · rcases PagePtr.region_disjoint f.config q p f.data.length hqp hptrp hne
                  with hd | hd
                · left
                  have h8 : 8 ≤ f.config.total_page_size := by
                    unfold Config.total_page_size BYTES_IN_U64
                    omega
                  show i < p
                  have := hqp.in_bounds
                  omega
                · right
                  show p + f.total_page_size ≤ i
                  rw [File.total_page_size_eq]
                  omega
              · have := hqp.above_header
                rw [File.first_free_page_ptr_eq]
                right
                omega
            have hch3 : Chain (f.deletePush p) nxt rest :=
              Chain_congr f (f.deletePush p) nxt rest hc3 hrest hbytes_rest
            have hval3 : ∀ q ∈ rest, PagePtr (f.deletePush p).config q
                (f.deletePush p).data.length := by
              intro q hq
              rw [hc3, hlen3]
              exact hval q (by simp [hq])
            have hdisj3 : ∀ q ∈ rest, q ∉ p :: FL := by
              intro q hq
              rw [List.mem_cons]
              push_neg
              exact ⟨fun he => hptr_notin (he ▸ hq), hdisj q (by simp [hq])⟩
            exact ih k (f.deletePush p) nxt (p :: FL)
              (WFcore_of_eq f _ hwf hc3 hlen3) hch3 (List.nodup_cons.mp hnd).2
              hval3 hfok3 hdisj3 (by simpa using hfuel)

theorem writeLoop_succ_eq (fuel : Nat) (f : File) (ptr : Nat) (data : List Nat) :
    File.writeLoop (fuel + 1) f ptr data =
      if f.config.page_size < data.length then
        match (f.writeChunk ptr data).read_page_header ptr with
        | .NextPage next =>
            File.writeLoop fuel (f.writeChunk ptr data) next (data.drop f.config.page_size)
        | .FinalPage _ =>
            match (f.writeChunk ptr data).alloc with
            | .ok new_page f2 =>
                File.writeLoop fuel (f2.write_page_header ptr (.NextPage new_page)) new_page
                  (data.drop f.config.page_size)
            | .err e f2 => .err e f2
            | .div => .div
        | .DeletedPage _ => .err .CorruptedFile (f.writeChunk ptr data)
      else
        match f.read_page_header ptr with
        | .NextPage truncated_pages =>
            match f.delete truncated_pages fuel with
            | .ok _ f2 => File.writeFinal f2 ptr data
            | .err e f2 => .err e f2
            | .div => .div
        | _ => File.writeFinal f ptr data := rfl

theorem delete_eq_loop (f : File) (ptr fuel : Nat)
    (hcheck : f.check_if_pointer_valid ptr = .ok ()) :
    f.delete ptr fuel = File.deleteLoop fuel f ptr := by
  unfold File.delete
  rw [hcheck]

/-- What the payload write of a loop iteration does. -/
theorem writeChunk_spec (f : File) (ptr : Nat) (data : List Nat)
    (hge : f.config.page_size ≤ data.length)
    (hinb : ptr + f.total_page_size ≤ f.data.length) :
    (f.writeChunk ptr data).config = f.config ∧
    (f.writeChunk ptr data).data.length = f.data.length ∧
    (f.writeChunk ptr data).read_page_header ptr = f.read_page_header ptr ∧
    readBytes (f.writeChunk ptr data).data (ptr + 8) f.config.page_size
      = data.take f.config.page_size ∧
    (∀ i, (i < ptr + 8 ∨ ptr + 8 + f.config.page_size ≤ i) →
      byteAt (f.writeChunk ptr data).data i = byteAt f.data i) := by
  have hT8 : f.total_page_size = 8 + f.config.page_size := rfl
  have htake : (data.take f.config.page_size).length = f.config.page_size := by
    rw [List.length_take]
    omega
  have hby : ∀ i, (i < ptr + 8 ∨ ptr + 8 + f.config.page_size ≤ i) →
      byteAt (f.writeChunk ptr data).data i = byteAt f.data i := by
    intro i hi
    unfold File.writeChunk
    show byteAt (writeBytes f.data (ptr + BYTES_IN_U64) (data.take f.config.page_size)) i
      = byteAt f.data i
    apply byteAt_writeBytes_lo
    rw [htake]
    unfold BYTES_IN_U64
    omega
  refine ⟨rfl, ?_, ?_, ?_, hby⟩
  · unfold File.writeChunk
    show (writeBytes f.data (ptr + BYTES_IN_U64) (data.take f.config.page_size)).length
      = f.data.length
    rw [length_writeBytes, htake]
    unfold BYTES_IN_U64
    omega
  · apply File.read_page_header_congr
    intro i h1 h2
    exact hby i (by omega)
  · show readBytes (writeBytes f.data (ptr + BYTES_IN_U64) (data.take f.config.page_size))
      (ptr + 8) f.config.page_size = data.take f.config.page_size
    have h8 : ptr + BYTES_IN_U64 = ptr + 8 := rfl
    have hself := readBytes_writeBytes_self f.data (ptr + 8) (data.take f.config.page_size)
    rw [htake] at hself
    rw [h8]
    exact hself

/-- What `writeFinal` does: it writes the final page in place, leaving every
byte outside that page unchanged. -/
theorem writeFinal_spec (f : File) (ptr : Nat) (data : List Nat)
    (hlen : data.length ≤ f.config.page_size)
    (hinb : ptr + f.total_page_size ≤ f.data.length)
    (hP : f.config.page_size < 2 ^ 62) :
    ∃ f', File.writeFinal f ptr data = .ok () f' ∧
      f'.config = f.config ∧ f'.data.length = f.data.length ∧
      f'.read_page_header ptr = .FinalPage data.length ∧
      readBytes f'.data (ptr + 8) data.length = data ∧
      (∀ i, (i < ptr ∨ ptr + f.total_page_size ≤ i) →
        byteAt f'.data i = byteAt f.data i) := by
  have hT8 : f.total_page_size = 8 + f.config.page_size := rfl
  set f1 : File := ⟨writeBytes f.data (ptr + BYTES_IN_U64) data, f.config⟩ with hf1
  set f2 : File := ⟨writeBytes f1.data (ptr + BYTES_IN_U64 + data.length)
      (List.replicate (f.config.page_size - data.length) 255), f.config⟩ with hf2
  set f3 := f2.write_page_header ptr (.FinalPage data.length) with hf3
  have hrun : File.writeFinal f ptr data = .ok () f3 := by
    rw [hf3, hf2, hf1]
    rfl
  have hlen1 : f1.data.length = f.data.length := by
    rw [hf1]
    show (writeBytes f.data (ptr + BYTES_IN_U64) data).length = f.data.length
    rw [length_writeBytes]
    unfold BYTES_IN_U64
    omega
  have hlen2 : f2.data.length = f.data.length := by
    rw [hf2]
    show (writeBytes f1.data (ptr + BYTES_IN_U64 + data.length) _).length = f.data.length
    rw [length_writeBytes, List.length_replicate, hlen1]
    unfold BYTES_IN_U64
    omega
  have hlen3 : f3.data.length = f.data.length := by
    rw [hf3]
    unfold File.write_page_header File.write_u64
    show (writeBytes f2.data ptr (u64ToLeBytes (PageHeader.FinalPage data.length).to_u64)).length
      = f.data.length
    rw [length_writeBytes, length_u64ToLeBytes, hlen2]
    omega
  have hframe : ∀ i, (i < ptr ∨ ptr + f.total_page_size ≤ i) →
      byteAt f3.data i = byteAt f.data i := by
    intro i hi
    have e3 : byteAt f3.data i = byteAt f2.data i := by
      rw [hf3]
      apply File.byteAt_write_page_header
      omega
    have e2 : byteAt f2.data i = byteAt f1.data i := by
      rw [hf2]
      show byteAt (writeBytes f1.data (ptr + BYTES_IN_U64 + data.length) _) i = byteAt f1.data i
      apply byteAt_writeBytes_lo
      rw [List.length_replicate]
      unfold BYTES_IN_U64
      omega
    have e1 : byteAt f1.data i = byteAt f.data i := by
      rw [hf1]
      show byteAt (writeBytes f.data (ptr + BYTES_IN_U64) data) i = byteAt f.data i
      apply byteAt_writeBytes_lo
      unfold BYTES_IN_U64
      omega
    rw [e3, e2, e1]
  have hhdr3 : f3.read_page_header ptr = .FinalPage data.length := by
    rw [hf3]
    exact f2.read_write_page_header_self ptr _ (by simpa [PageHeader.value] using by omega)
  have hdata3 : readBytes f3.data (ptr + 8) data.length = data := by
    have e1 : readBytes f1.data (ptr + 8) data.length = data := by
      rw [hf1]
      show readBytes (writeBytes f.data (ptr + BYTES_IN_U64) data) (ptr + 8) data.length = data
      have h8 : ptr + BYTES_IN_U64 = ptr + 8 := rfl
      rw [h8, readBytes_writeBytes_self]
    have e2 : readBytes f2.data (ptr + 8) data.length = readBytes f1.data (ptr + 8) data.length := by
      apply readBytes_congr
      intro i h1 h2
      rw [hf2]
      show byteAt (writeBytes f1.data (ptr + BYTES_IN_U64 + data.length) _) i = byteAt f1.data i
      apply byteAt_writeBytes_lo
      unfold BYTES_IN_U64
      omega
    have e3 : readBytes f3.data (ptr + 8) data.length = readBytes f2.data (ptr + 8) data.length := by
      apply readBytes_congr
      intro i h1 h2
      rw [hf3]
      apply File.byteAt_write_page_header
      omega
    rw [e3, e2, e1]
  exact ⟨f3, hrun, rfl, hlen3, hhdr3, hdata3, hframe⟩

/-- Transfer a well-formed free list between files that agree on the
free-list head slot and the headers of the listed pages. -/
theorem FreeOK_congr (f g : File) (FL : List Nat) (hfok : FreeOK f FL)
    (hc : g.config = f.config) (hl : f.data.length ≤ g.data.length)
    (hslot : ∀ i, f.first_free_page_ptr ≤ i → i < f.first_free_page_ptr + 8 →
      byteAt g.data i = byteAt f.data i)
    (hpages : ∀ p ∈ FL, ∀ i, p ≤ i → i < p + 8 → byteAt g.data i = byteAt f.data i) :
    FreeOK g FL := by
  have hffp : g.first_free_page = f.first_free_page :=
    File.first_free_page_congr g f hc (fun i h1 h2 => by
      have he : g.first_free_page_ptr = f.first_free_page_ptr := by
        rw [File.first_free_page_ptr_eq, File.first_free_page_ptr_eq, hc]
      rw [he] at h1 h2
      exact hslot i h1 h2)
  refine ⟨?_, hfok.nodup, ?_⟩
  · rw [hffp]
    exact FreeChain_congr f g _ FL hfok.chain hpages
  · intro p hp
    have hv := hfok.valid p hp
    rw [hc]
    exact ⟨hv.hs_le, hv.aligned, by have := hv.in_bounds; omega⟩

theorem pageCount_of_le (P n : Nat) (hP : 0 < P) (h : n ≤ P) : pageCount P n = 1 := by
  unfold pageCount
  have h2 : (n + P - 1) / P < 2 := by
    rw [Nat.div_lt_iff_lt_mul hP]
    omega
  omega

theorem pageCount_of_gt (P n : Nat) (hP : 0 < P) (h : P < n) :
    pageCount P n = 1 + pageCount P (n - P) := by
  unfold pageCount
  have he : n + P - 1 = (n - P + P - 1) + P := by omega
  have h1 : 1 ≤ (n - P + P - 1) / P := by
    rw [Nat.le_div_iff_mul_le hP]
    omega
  rw [he, Nat.add_div_right _ hP]
  omega

/-- The central specification of the write loop.  Starting from an active
chain `rest` rooted at `ptr` in a well-formed file, a successful run with
payload `data` leaves a chain that carries exactly `data`, occupying
`⌈max 1 |data| / page_size⌉` pages; every original chain page is either
still in the chain or on the free list; pages of the new chain come from
the old chain, the free list, or fresh appends; and no byte outside the
old chain's pages, the free list's pages, the free-list head slot and the
appended region changes. -/
theorem writeLoop_spec :
    ∀ (fuel : Nat) (f : File) (ptr : Nat) (data rest FL : List Nat) (f' : File),
    WFcore f →
    Chain f ptr rest → rest.Nodup →
    (∀ p ∈ rest, PagePtr f.config p f.data.length) →
    FreeOK f FL → (∀ p ∈ rest, p ∉ FL) →
    f.data.length + (data.length / f.config.page_size + 1) * f.total_page_size ≤ 2 ^ 62 →
    File.writeLoop fuel f ptr data = .ok () f' →
    ∃ newpages FL',
      f'.config = f.config ∧ WFcore f' ∧ f.data.length ≤ f'.data.length ∧
      ChainW f' ptr newpages data ∧
      newpages.length = pageCount f.config.page_size data.length ∧
      newpages.Nodup ∧
      (∀ p ∈ newpages, PagePtr f.config p f'.data.length ∧
        (p ∈ rest ∨ p ∈ FL ∨ f.data.length ≤ p)) ∧
      FreeOK f' FL' ∧
      (∀ p ∈ FL', (p ∈ FL ∨ p ∈ rest) ∧ p ∉ newpages) ∧
      (∀ p ∈ rest, p ∈ newpages ∨ p ∈ FL') ∧
      (∀ i, i < f.data.length →
        (∀ p ∈ rest, i < p ∨ p + f.total_page_size ≤ i) →
        (∀ p ∈ FL, i < p ∨ p + f.total_page_size ≤ i) →
        (i < f.first_free_page_ptr ∨ f.first_free_page_ptr + 8 ≤ i) →
        byteAt f'.data i = byteAt f.data i) := by
  intro fuel
  induction fuel with
  | zero =>
      intro f ptr data rest FL f' _ _ _ _ _ _ _ hrun
      exact absurd hrun (by simp [File.writeLoop])
  | succ k ih =>
    intro f ptr data rest FL f' hwf hch hnd hval hfree hdisj hbound hrun
    have hP : 0 < f.config.page_size := hwf.psPos
    have hT8 : f.total_page_size = 8 + f.config.page_size := rfl
    have hTc : f.total_page_size = f.config.total_page_size := rfl
    have hmem0 : ptr ∈ rest := hch.head_mem
    have hptrp : PagePtr f.config ptr f.data.length := hval ptr hmem0
    have hinb : ptr + f.total_page_size ≤ f.data.length := by
      rw [hTc]
      exact hptrp.in_bounds
    have hslotM : f.first_free_page_ptr + 8 ≤ ptr := by
      rw [File.first_free_page_ptr_eq]
      have := hptrp.above_header
      omega
    have hP62 : f.config.page_size < 2 ^ 62 := by
      have := hwf.lenBound
      omega
    by_cases hgt : f.config.page_size < data.length
    · -- a loop iteration: write one chunk and advance
      obtain ⟨hcg, hlg, hhg, hpayg, hbyg⟩ := writeChunk_spec f ptr data (le_of_lt hgt) hinb
      set g := f.writeChunk ptr data with hg
      have hbyg' : ∀ i, (i < ptr ∨ ptr + f.total_page_size ≤ i) →
          byteAt g.data i = byteAt f.data i := by
        intro i hi
        apply hbyg
        omega
      have hgT : g.total_page_size = f.total_page_size := by
        unfold File.total_page_size
        rw [hcg]
      have hgS : g.first_free_page_ptr = f.first_free_page_ptr := by
        rw [File.first_free_page_ptr_eq, File.first_free_page_ptr_eq, hcg]
      have hgps : g.config.page_size = f.config.page_size := by rw [hcg]
      have hfokg : FreeOK g FL := by
        apply FreeOK_congr f g FL hfree hcg (by rw [hlg])
        · intro i h1 h2
          apply hbyg'
          left
          omega
        · intro p hp i h1 h2
          have hqp := hfree.valid p hp
          have hne : p ≠ ptr := fun he => hdisj ptr hmem0 (he ▸ hp)
          apply hbyg'
          rcases PagePtr.region_disjoint f.config p ptr f.data.length hqp hptrp hne with hd | hd
          · left
            rw [← hTc] at hd
            have h8 : 8 ≤ f.total_page_size := by omega
            omega
          · right
            rw [← hTc] at hd
            omega
      have hwfg : WFcore g := WFcore_of_eq f g hwf hcg hlg
      have hdrop : (data.drop f.config.page_size).length = data.length - f.config.page_size := by
        simp
      cases hch with
      | final ptr0 n hn hhdr =>
          -- the chain has run out: allocate a fresh page and link it in
          have hhg_fin : g.read_page_header ptr = .FinalPage n := by rw [hhg]; exact hhdr
          have hone : 1 ≤ data.length / f.config.page_size := by
            rw [Nat.one_le_div_iff hP]
            omega
          have hroomg : g.data.length + g.total_page_size < 2 ^ 62 := by
            rw [hlg, hgT]
            have hmul : 2 * f.total_page_size
                ≤ (data.length / f.config.page_size + 1) * f.total_page_size :=
              Nat.mul_le_mul_right _ (by omega)
            omega
          obtain ⟨h2, f2, FL2, halloc, hc2, hl2a, hl2b, hwf2, hpage2, hhdr2, horig2, hfok2,
            hiff2, hvalFL2, hframe2⟩ := alloc_spec g FL hwfg hfokg hroomg
          rw [writeLoop_succ_eq, if_pos hgt, ← hg] at hrun
          simp only [hhg_fin, halloc] at hrun
          set f3 := f2.write_page_header ptr (.NextPage h2) with hf3
          have hc2f : f2.config = f.config := hc2.trans hcg
          have hc3 : f3.config = f.config := by
            rw [hf3]
            rw [File.config_write_page_header]
            exact hc2f
          have hlen_ge : f.data.length ≤ f2.data.length := by rw [← hlg]; exact hl2a
          have hlen_le : f2.data.length ≤ f.data.length + f.total_page_size := by
            rw [← hlg, ← hgT]
            exact hl2b
          have hl3 : f3.data.length = f2.data.length := by
            rw [hf3]
            unfold File.write_page_header File.write_u64
            show (writeBytes f2.data ptr (u64ToLeBytes (PageHeader.NextPage h2).to_u64)).length
              = f2.data.length
            rw [length_writeBytes, length_u64ToLeBytes]
            omega
          have hpage2' : PagePtr f.config h2 f2.data.length := by
            rw [← hcg]
            exact hpage2
          have hne_ptr_h2 : ptr ≠ h2 := by
            rcases horig2 with h | h
            · exact fun he => hdisj ptr hmem0 (he ▸ h)
            · intro he
              rw [he, h, hlg] at hinb
              omega
          have h2lt : h2 < 2 ^ 62 := by
            have := hpage2'.in_bounds
            rw [← hTc] at this
            have hg2 : g.data.length + g.total_page_size < 2 ^ 62 := hroomg
            rw [hlg, hgT] at hg2
            omega
          have hptrp2 : PagePtr f.config ptr f2.data.length :=
            ⟨hptrp.hs_le, hptrp.aligned, by have := hptrp.in_bounds; omega⟩
          have hhdr3ptr : f3.read_page_header ptr = .NextPage h2 := by
            rw [hf3]
            exact f2.read_write_page_header_self ptr _ (by simpa [PageHeader.value] using h2lt)
          have hd_ptr_h2 : ptr + f.config.total_page_size ≤ h2 ∨
              h2 + f.config.total_page_size ≤ ptr :=
            PagePtr.region_disjoint f.config ptr h2 f2.data.length hptrp2 hpage2' hne_ptr_h2
          have hby3 : ∀ i, (i < ptr ∨ ptr + 8 ≤ i) → byteAt f3.data i = byteAt f2.data i := by
            intro i hi
            rw [hf3]
            exact File.byteAt_write_page_header f2 ptr _ i hi
          have hhdrh2 : f3.read_page_header h2 = .FinalPage 0 := by
            have e : f3.read_page_header h2 = f2.read_page_header h2 := by
              apply File.read_page_header_congr
              intro i h1 h2i
              apply hby3
              rw [← hTc] at hd_ptr_h2
              have h8 : 8 ≤ f.total_page_size := by omega
              rcases hd_ptr_h2 with hd | hd
              · right
                omega
              · left
                omega
            rw [e]
            exact hhdr2
          have hch3 : Chain f3 h2 [h2] :=
            Chain.final h2 0 (Nat.zero_le _) hhdrh2
          have hfok3 : FreeOK f3 FL2 := by
            apply FreeOK_congr f2 f3 FL2 hfok2 (by rw [hf3]; rw [File.config_write_page_header])
              (by omega)
            · intro i h1 h2i
              apply hby3
              left
              have hS2 : f2.first_free_page_ptr = f.first_free_page_ptr := by
                rw [File.first_free_page_ptr_eq, File.first_free_page_ptr_eq, hc2f]
              rw [hS2] at h2i
              omega
            · intro q hq i h1 h2i
              have hqFL : q ∈ FL := ((hiff2 q).mp hq).1
              have hne : q ≠ ptr := fun he => hdisj ptr hmem0 (he ▸ hqFL)
              have hqp : PagePtr f.config q f2.data.length := by
                have := hfree.valid q hqFL
                exact ⟨this.hs_le, this.aligned, by have := this.in_bounds; omega⟩
              apply hby3
              rcases PagePtr.region_disjoint f.config q ptr f2.data.length hqp hptrp2 hne
                with hd | hd
              · left
                rw [← hTc] at hd
                have h8 : 8 ≤ f.total_page_size := by omega
                omega
              · right
                rw [← hTc] at hd
                have h8 : 8 ≤ f.total_page_size := by omega
                omega
          have hwf3 : WFcore f3 := WFcore_of_eq f2 f3 hwf2
            (by rw [hf3]; rw [File.config_write_page_header]) hl3
          have hval3 : ∀ p ∈ [h2], PagePtr f3.config p f3.data.length := by
            intro p hp
            rw [List.mem_singleton] at hp
            subst hp
            rw [hc3, hl3]
            exact hpage2'
          have hdisj3 : ∀ p ∈ [h2], p ∉ FL2 := by
            intro p hp
            rw [List.mem_singleton] at hp
            subst hp
            intro hin
            exact ((hiff2 p).mp hin).2 rfl
          have hT3 : f3.total_page_size = f.total_page_size := by
            unfold File.total_page_size
            rw [hc3]
          have hps3 : f3.config.page_size = f.config.page_size := by rw [hc3]
          have hbound3 : f3.data.length +
              ((data.drop f.config.page_size).length / f3.config.page_size + 1)
              * f3.total_page_size ≤ 2 ^ 62 := by
            rw [hdrop, hps3, hT3]
            have hdiv : data.length / f.config.page_size
                = (data.length - f.config.page_size) / f.config.page_size + 1 :=
              Nat.div_eq_sub_div hP (by omega)
            rw [← hdiv]
            have hmul : (data.length / f.config.page_size + 1) * f.total_page_size
                = (data.length / f.config.page_size) * f.total_page_size
                  + f.total_page_size := by
              rw [Nat.succ_mul]
            omega
          obtain ⟨np', FL'', hc', hwf', hle', hchW', hcount', hnd', hmem', hfok', hflm',
            hcov', hframe'⟩ :=
            ih f3 h2 (data.drop f.config.page_size) [h2] FL2 f' hwf3 hch3 (by simp)
              hval3 hfok3 hdisj3 hbound3 hrun
          have hS3 : f3.first_free_page_ptr = f.first_free_page_ptr := by
            rw [File.first_free_page_ptr_eq, File.first_free_page_ptr_eq, hc3]
          have hh2np' : h2 ∈ np' := hchW'.head_mem_w
          have hptr_np' : ptr ∉ np' := by
            intro hin
            rcases (hmem' ptr hin).2 with h | h | h
            · rw [List.mem_singleton] at h
              exact hne_ptr_h2 h
            · exact hdisj ptr hmem0 ((hiff2 ptr).mp h).1
            · rw [hl3] at h
              omega
          have hpre3 : ∀ i, ptr ≤ i → i < ptr + f.total_page_size →
              byteAt f'.data i = byteAt f3.data i := by
            intro i h1 h2i
            apply hframe' i
            · rw [hl3]
              omega
            · intro q hq
              rw [List.mem_singleton] at hq
              subst hq
              rw [hT3, hTc]
              rcases hd_ptr_h2 with hd | hd
              · left
                omega
              · right
                omega
            · intro q hq
              have hqFL : q ∈ FL := ((hiff2 q).mp hq).1
              have hne : q ≠ ptr := fun he => hdisj ptr hmem0 (he ▸ hqFL)
              have hqp : PagePtr f.config q f2.data.length := by
                have := hfree.valid q hqFL
                exact ⟨this.hs_le, this.aligned, by have := this.in_bounds; omega⟩
              rw [hT3, hTc]
              rcases PagePtr.region_disjoint f.config q ptr f2.data.length hqp hptrp2 hne
                with hd | hd
              · right
                omega
              · left
                omega
            · rw [hS3]
              right
              omega
          have hpayload3 : readBytes f3.data (ptr + 8) f.config.page_size
              = data.take f.config.page_size := by
            have e32 : readBytes f3.data (ptr + 8) f.config.page_size
                = readBytes f2.data (ptr + 8) f.config.page_size := by
              apply readBytes_congr
              intro i h1 h2i
              apply hby3
              omega
            have e2g : readBytes f2.data (ptr + 8) f.config.page_size
                = readBytes g.data (ptr + 8) f.config.page_size := by
              apply readBytes_congr
              intro i h1 h2i
              apply hframe2 i
              · rw [hlg]
                omega
              · rw [hgT, hTc]
                rcases hd_ptr_h2 with hd | hd
                · left
                  omega
                · right
                  have h8 : 8 ≤ f.config.total_page_size := by rw [← hTc]; omega
                  omega
              · rw [hgS]
                right
                omega
            rw [e32, e2g]
            exact hpayg
          have hhdr'ptr : f'.read_page_header ptr = .NextPage h2 := by
            have e : f'.read_page_header ptr = f3.read_page_header ptr := by
              apply File.read_page_header_congr
              intro i h1 h2i
              apply hpre3 i h1
              omega
            rw [e]
            exact hhdr3ptr
          have hpay' : readBytes f'.data (ptr + 8) f.config.page_size
              = data.take f.config.page_size := by
            have e : readBytes f'.data (ptr + 8) f.config.page_size
                = readBytes f3.data (ptr + 8) f.config.page_size := by
              apply readBytes_congr
              intro i h1 h2i
              apply hpre3 i (by omega) (by omega)
            rw [e]
            exact hpayload3
          have hps' : f'.config.page_size = f.config.page_size := by
            rw [hc'.trans hc3]
          refine ⟨ptr :: np', FL'', hc'.trans hc3, hwf', ?_, ?_, ?_, ?_, ?_, hfok', ?_, ?_, ?_⟩
          · calc f.data.length ≤ f2.data.length := hlen_ge
              _ = f3.data.length := hl3.symm
              _ ≤ f'.data.length := hle'
          · refine ChainW.cons ptr h2 np' data ?_ hhdr'ptr ?_ ?_
            · rw [hps']
              exact hgt
            · rw [hps']
              exact hpay'
            · rw [hps']
              exact hchW'
          · rw [List.length_cons, hcount', hdrop, hps3, pageCount_of_gt _ _ hP hgt]
            omega
          · rw [List.nodup_cons]
            exact ⟨hptr_np', hnd'⟩
          · intro p hp
            rcases List.mem_cons.mp hp with hp | hp
            · subst hp
              constructor
              · refine ⟨hptrp.hs_le, hptrp.aligned, ?_⟩
                have := hptrp.in_bounds
                have : f.data.length ≤ f'.data.length := by
                  calc f.data.length ≤ f2.data.length := hlen_ge
                    _ = f3.data.length := hl3.symm
                    _ ≤ f'.data.length := hle'
                omega
              · exact Or.inl hmem0
            · obtain ⟨hpp, hor⟩ := hmem' p hp
              constructor
              · rw [hc3] at hpp
                exact hpp
              · rcases hor with h | h | h
                · rw [List.mem_singleton] at h
                  subst h
                  rcases horig2 with h | h
                  · exact Or.inr (Or.inl h)
                  · right; right
                    rw [h, hlg]
                · exact Or.inr (Or.inl ((hiff2 p).mp h).1)
                · right; right
                  rw [hl3] at h
                  omega
          · intro p hp
            obtain ⟨hor, hnp⟩ := hflm' p hp
            have hpFL : p ∈ FL := by
              rcases hor with h | h
              · exact ((hiff2 p).mp h).1
              · rw [List.mem_singleton] at h
                subst h
                exact absurd hh2np' hnp
            refine ⟨Or.inl hpFL, ?_⟩
            rw [List.mem_cons]
            push_neg
            exact ⟨fun he => hdisj ptr hmem0 (he ▸ hpFL), hnp⟩
          · intro p hp
            have : p = ptr := List.mem_singleton.mp hp
            subst this
            exact Or.inl (by simp)
          · intro i hilt hrest hFL hsl
            have e1 : byteAt g.data i = byteAt f.data i :=
              hbyg' i (hrest ptr hmem0)
            have e2 : byteAt f2.data i = byteAt g.data i := by
              apply hframe2 i
              · rw [hlg]
                exact hilt
              · rcases horig2 with h | h
                · have := hFL h2 h
                  rw [hgT]
                  exact this
                · left
                  rw [h, hlg]
                  exact hilt
              · rw [hgS]
                exact hsl
            have e3 : byteAt f3.data i = byteAt f2.data i := by
              apply hby3
              rcases hrest ptr hmem0 with h | h
              · left; exact h
              · right; omega
            have e4 : byteAt f'.data i = byteAt f3.data i := by
              apply hframe' i
              · rw [hl3]
                omega
              · intro q hq
                rw [List.mem_singleton] at hq
                subst hq
                rw [hT3]
                rcases horig2 with h | h
                · exact hFL q h
                · left
                  rw [h, hlg]
                  exact hilt
              · intro q hq
                rw [hT3]
                exact hFL q ((hiff2 q).mp hq).1
              · rw [hS3]
                exact hsl
            rw [e4, e3, e2, e1]
      | next ptr0 nxt rest' hhdr hrest =>
          -- follow the existing chain link
          have hhg_next : g.read_page_header ptr = .NextPage nxt := by rw [hhg]; exact hhdr
          rw [writeLoop_succ_eq, if_pos hgt, ← hg] at hrun
          simp only [hhg_next] at hrun
          have hndr : rest'.Nodup := (List.nodup_cons.mp hnd).2
          have hptr_notin : ptr ∉ rest' := (List.nodup_cons.mp hnd).1
          have hchg : Chain g nxt rest' := by
            apply Chain_congr f g nxt rest' hcg hrest
            intro q hq i h1 h2i
            have hqp : PagePtr f.config q f.data.length := hval q (by simp [hq])
            have hne : q ≠ ptr := fun he => hptr_notin (he ▸ hq)
            apply hbyg'
            rcases PagePtr.region_disjoint f.config q ptr f.data.length hqp hptrp hne
              with hd | hd
            · left
              rw [← hTc] at hd
              omega
            · right
              rw [← hTc] at hd
              omega
          have hvalg : ∀ p ∈ rest', PagePtr g.config p g.data.length := by
            intro p hp
            rw [hcg, hlg]
            exact hval p (by simp [hp])
          have hdisjg : ∀ p ∈ rest', p ∉ FL := fun p hp => hdisj p (by simp [hp])
          have hboundg : g.data.length +
              ((data.drop f.config.page_size).length / g.config.page_size + 1)
              * g.total_page_size ≤ 2 ^ 62 := by
            rw [hdrop, hgps, hgT, hlg]
            have hd1 : (data.length - f.config.page_size) / f.config.page_size
                ≤ data.length / f.config.page_size := Nat.div_le_div_right (by omega)
            have hmul : ((data.length - f.config.page_size) / f.config.page_size + 1)
                * f.total_page_size
                ≤ (data.length / f.config.page_size + 1) * f.total_page_size :=
              Nat.mul_le_mul_right _ (by omega)
            omega
          obtain ⟨np', FL', hc', hwf', hle', hchW', hcount', hnd', hmem', hfok', hflm',
            hcov', hframe'⟩ :=
            ih g nxt (data.drop f.config.page_size) rest' FL f' hwfg hchg hndr hvalg
              hfokg hdisjg hboundg hrun
          have hptr_np' : ptr ∉ np' := by
            intro hin
            rcases (hmem' ptr hin).2 with h | h | h
            · exact hptr_notin h
            · exact hdisj ptr hmem0 h
            · rw [hlg] at h
              omega
          have hpreg : ∀ i, ptr ≤ i → i < ptr + f.total_page_size →
              byteAt f'.data i = byteAt g.data i := by
            intro i h1 h2i
            apply hframe' i
            · rw [hlg]
              omega
            · intro q hq
              have hqp : PagePtr f.config q f.data.length := hval q (by simp [hq])
              have hne : q ≠ ptr := fun he => hptr_notin (he ▸ hq)
              rw [hgT, hTc]
              rcases PagePtr.region_disjoint f.config q ptr f.data.length hqp hptrp hne
                with hd | hd
              · right
                omega
              · left
                omega
            · intro q hq
              have hqp := hfree.valid q hq
              have hne : q ≠ ptr := fun he => hdisj ptr hmem0 (he ▸ hq)
              rw [hgT, hTc]
              rcases PagePtr.region_disjoint f.config q ptr f.data.length hqp hptrp hne
                with hd | hd
              · right
                omega
              · left
                omega
            · rw [hgS]
              right
              omega
          have hhdr'ptr : f'.read_page_header ptr = .NextPage nxt := by
            have e : f'.read_page_header ptr = g.read_page_header ptr := by
              apply File.read_page_header_congr
              intro i h1 h2i
              apply hpreg i h1
              omega
            rw [e]
            exact hhg_next
          have hpay' : readBytes f'.data (ptr + 8) f.config.page_size
              = data.take f.config.page_size := by
            have e : readBytes f'.data (ptr + 8) f.config.page_size
                = readBytes g.data (ptr + 8) f.config.page_size := by
              apply readBytes_congr
              intro i h1 h2i
              apply hpreg i (by omega) (by omega)
            rw [e]
            exact hpayg
          have hps' : f'.config.page_size = f.config.page_size := by
            rw [hc'.trans hcg]
          refine ⟨ptr :: np', FL', hc'.trans hcg, hwf', ?_, ?_, ?_, ?_, ?_, hfok', ?_, ?_, ?_⟩
          · rw [← hlg]
            exact hle'
          · refine ChainW.cons ptr nxt np' data ?_ hhdr'ptr ?_ ?_
            · rw [hps']
              exact hgt
            · rw [hps']
              exact hpay'
            · rw [hps']
              exact hchW'
          · rw [List.length_cons, hcount', hdrop, hgps, pageCount_of_gt _ _ hP hgt]
            omega
          · rw [List.nodup_cons]
            exact ⟨hptr_np', hnd'⟩
          · intro p hp
            rcases List.mem_cons.mp hp with hp | hp
            · subst hp
              constructor
              · refine ⟨hptrp.hs_le, hptrp.aligned, ?_⟩
                have h1 := hptrp.in_bounds
                have h2i : f.data.length ≤ f'.data.length := by rw [← hlg]; exact hle'
                omega
              · exact Or.inl hmem0
            · obtain ⟨hpp, hor⟩ := hmem' p hp
              constructor
              · rw [hcg] at hpp
                exact hpp
              · rcases hor with h | h | h
                · exact Or.inl (by simp [h])
                · exact Or.inr (Or.inl h)
                · right; right
                  rw [hlg] at h
                  omega
          · intro p hp
            obtain ⟨hor, hnp⟩ := hflm' p hp
            constructor
            · rcases hor with h | h
              · exact Or.inl h
              · exact Or.inr (by simp [h])
            · rw [List.mem_cons]
              push_neg
              refine ⟨?_, hnp⟩
              intro he
              subst he
              rcases hor with h | h
              · exact hdisj p hmem0 h
              · exact hptr_notin h
          · intro p hp
            rcases List.mem_cons.mp hp with hp | hp
            · subst hp
              exact Or.inl (by simp)
            · rcases hcov' p hp with h | h
              · exact Or.inl (by simp [h])
              · exact Or.inr h
          · intro i hilt hrest2 hFL hsl
            have e1 : byteAt g.data i = byteAt f.data i :=
              hbyg' i (hrest2 ptr hmem0)
            have e2 : byteAt f'.data i = byteAt g.data i := by
              apply hframe' i
              · rw [hlg]
                exact hilt
              · intro q hq
                rw [hgT]
                exact hrest2 q (by simp [hq])
              · intro q hq
                rw [hgT]
                exact hFL q hq
              · rw [hgS]
                exact hsl
            rw [e2, e1]
    · -- the final page: possibly truncate, then write the tail in place
      rw [writeLoop_succ_eq, if_neg hgt] at hrun
      have hlendata : data.length ≤ f.config.page_size := by omega
      cases hch with
      | final ptr0 n hn hhdr =>
          simp only [hhdr] at hrun
          obtain ⟨fW, hWrun, hWc, hWlen, hWhdr, hWdata, hWframe⟩ :=
            writeFinal_spec f ptr data hlendata hinb hP62
          rw [hWrun] at hrun
          have hfW : fW = f' := ((MRes.ok.injEq _ _ _ _).mp hrun).2
          subst hfW
          refine ⟨[ptr], FL, hWc, WFcore_of_eq f fW hwf hWc hWlen, by omega, ?_, ?_, ?_,
            ?_, ?_, ?_, ?_, ?_⟩
          · refine ChainW.last ptr data ?_ ?_ ?_
            · rw [hWc]
              exact hlendata
            · exact hWhdr
            · exact hWdata
          · rw [pageCount_of_le _ _ hP hlendata]
            rfl
          · simp
          · intro p hp
            rw [List.mem_singleton] at hp
            subst hp
            refine ⟨⟨hptrp.hs_le, hptrp.aligned, by rw [hWlen]; exact hptrp.in_bounds⟩,
              Or.inl hmem0⟩
          · apply FreeOK_congr f fW FL hfree hWc (by omega)
            · intro i h1 h2
              apply hWframe
              left
              omega
            · intro p hp i h1 h2
              have hqp := hfree.valid p hp
              have hne : p ≠ ptr := fun he => hdisj ptr hmem0 (he ▸ hp)
              apply hWframe
              rcases PagePtr.region_disjoint f.config p ptr f.data.length hqp hptrp hne
                with hd | hd
              · left
                rw [← hTc] at hd
                have h8 : 8 ≤ f.total_page_size := by omega
                omega
              · right
                rw [← hTc] at hd
                omega
          · intro p hp
            refine ⟨Or.inl hp, ?_⟩
            rw [List.mem_singleton]
            exact fun he => hdisj ptr hmem0 (he ▸ hp)
          · intro p hp
            rw [List.mem_singleton] at hp
            subst hp
            exact Or.inl (by simp)
          · intro i hilt hrest2 hFL hsl
            apply hWframe
            exact hrest2 ptr hmem0
      | next ptr0 nxt rest' hhdr hrest =>
          simp only [hhdr] at hrun
          have hnxtp : PagePtr f.config nxt f.data.length := by
            apply hval
            rw [List.mem_cons]
            exact Or.inr hrest.head_mem
          have hcheck : f.check_if_pointer_valid nxt = .ok () :=
            check_ok_of_page f nxt hnxtp (hrest.head_not_deleted)
          rw [delete_eq_loop f nxt k hcheck] at hrun
          have hndr : rest'.Nodup := (List.nodup_cons.mp hnd).2
          have hptr_notin : ptr ∉ rest' := (List.nodup_cons.mp hnd).1
          have hvalr : ∀ p ∈ rest', PagePtr f.config p f.data.length :=
            fun p hp => hval p (by simp [hp])
          have hdisjr : ∀ p ∈ rest', p ∉ FL := fun p hp => hdisj p (by simp [hp])
          cases hdl : File.deleteLoop k f nxt with
          | ok u f2 =>
              cases u
              simp only [hdl] at hrun
              obtain ⟨hc2, hlen2, hfok2, hlast2, hframe2⟩ :=
                deleteLoop_ok rest' k f nxt FL f2 hwf hrest hndr hvalr hfree hdisjr hdl
              have hinb2 : ptr + f2.total_page_size ≤ f2.data.length := by
                have hT2 : f2.total_page_size = f.total_page_size := by
                  unfold File.total_page_size
                  rw [hc2]
                rw [hT2, hlen2]
                exact hinb
              obtain ⟨fW, hWrun, hWc, hWlen, hWhdr, hWdata, hWframe⟩ :=
                writeFinal_spec f2 ptr data (by rw [hc2]; exact hlendata) hinb2
                  (by rw [hc2]; exact hP62)
              rw [hWrun] at hrun
              have hfW : fW = f' := ((MRes.ok.injEq _ _ _ _).mp hrun).2
              subst hfW
              have hcW : fW.config = f.config := hWc.trans hc2
              have hlenW : fW.data.length = f.data.length := hWlen.trans hlen2
              have hTW : f2.total_page_size = f.total_page_size := by
                unfold File.total_page_size
                rw [hc2]
              have hSW : f2.first_free_page_ptr = f.first_free_page_ptr := by
                rw [File.first_free_page_ptr_eq, File.first_free_page_ptr_eq, hc2]
              refine ⟨[ptr], rest'.reverse ++ FL, hcW, WFcore_of_eq f fW hwf hcW hlenW,
                by omega, ?_, ?_, ?_, ?_, ?_, ?_, ?_, ?_⟩
              · refine ChainW.last ptr data ?_ ?_ ?_
                · rw [hcW]
                  exact hlendata
                · exact hWhdr
                · exact hWdata
              · rw [pageCount_of_le _ _ hP hlendata]
                rfl
              · simp
              · intro p hp
                rw [List.mem_singleton] at hp
                subst hp
                refine ⟨⟨hptrp.hs_le, hptrp.aligned, by rw [hlenW]; exact hptrp.in_bounds⟩,
                  Or.inl hmem0⟩
              · apply FreeOK_congr f2 fW (rest'.reverse ++ FL) hfok2 hWc (by omega)
                · intro i h1 h2
                  apply hWframe
                  left
                  rw [hSW] at h2
                  omega
                · intro p hp i h1 h2
                  have hpor : p ∈ rest' ∨ p ∈ FL := by
                    rcases List.mem_append.mp hp with h | h
                    · exact Or.inl (List.mem_reverse.mp h)
                    · exact Or.inr h
                  have hqp : PagePtr f.config p f2.data.length := by
                    have hv : PagePtr f.config p f.data.length := by
                      rcases hpor with h | h
                      · exact hvalr p h
                      · exact hfree.valid p h
                    exact ⟨hv.hs_le, hv.aligned, by rw [hlen2]; exact hv.in_bounds⟩
                  have hne : p ≠ ptr := by
                    rcases hpor with h | h
                    · exact fun he => hptr_notin (he ▸ h)
                    · exact fun he => hdisj ptr hmem0 (he ▸ h)
                  have hptrp2 : PagePtr f.config ptr f2.data.length :=
                    ⟨hptrp.hs_le, hptrp.aligned, by rw [hlen2]; exact hptrp.in_bounds⟩
                  apply hWframe
                  rcases PagePtr.region_disjoint f.config p ptr f2.data.length hqp hptrp2 hne
                    with hd | hd
                  · left
                    rw [← hTc] at hd
                    have h8 : 8 ≤ f.total_page_size := by omega
                    omega
                  · right
                    rw [← hTc] at hd
                    rw [hTW]
                    omega
              · intro p hp
                have hpor : p ∈ rest' ∨ p ∈ FL := by
                  rcases List.mem_append.mp hp with h | h
                  · exact Or.inl (List.mem_reverse.mp h)
                  · exact Or.inr h
                constructor
                · rcases hpor with h | h
                  · exact Or.inr (by simp [h])
                  · exact Or.inl h
                · rw [List.mem_singleton]
                  rcases hpor with h | h
                  · exact fun he => hptr_notin (he ▸ h)
                  · exact fun he => hdisj ptr hmem0 (he ▸ h)
              · intro p hp
                rcases List.mem_cons.mp hp with hp | hp
                · subst hp
                  exact Or.inl (by simp)
                · right
                  rw [List.mem_append, List.mem_reverse]
                  exact Or.inl hp
              · intro i hilt hrest2 hFL hsl
                have e2 : byteAt f2.data i = byteAt f.data i := by
                  apply hframe2 i
                  · intro q hq
                    exact hrest2 q (by simp [hq])
                  · exact hsl
                have eW : byteAt fW.data i = byteAt f2.data i := by
                  apply hWframe
                  rw [hTW]
                  exact hrest2 ptr hmem0
                rw [eW, e2]
          | err e f2 =>
              simp only [hdl] at hrun
              exact absurd hrun (by simp)
          | div =>
              simp only [hdl] at hrun
              exact absurd hrun (by simp)

/-! ## The read path -/
theorem BYTES_IN_U64_eq : BYTES_IN_U64 = 8 := rfl

theorem readLoop_succ_eq (fuel : Nat) (f : File) (ptr : Nat) (acc : List Nat) :
    File.readLoop (fuel + 1) f ptr acc =
      match f.read_page_header ptr with
      | .NextPage next =>
          File.readLoop fuel f next (acc ++ readBytes f.data (ptr + BYTES_IN_U64) f.config.page_size)
      | .FinalPage size => .ok (acc ++ readBytes f.data (ptr + BYTES_IN_U64) size)
      | .DeletedPage _ => .err .CorruptedFile := rfl

/-- Reading along a chain that carries `data` returns exactly `data`. -/
theorem readLoop_of_chainW (f : File) (ptr : Nat) (pages data : List Nat)
    (h : ChainW f ptr pages data) :
    ∀ acc fuel, pages.length ≤ fuel → File.readLoop fuel f ptr acc = .ok (acc ++ data) := by
  induction h with
  | last ptr data hlen hhdr hdata =>
      intro acc fuel hfuel
      cases fuel with
      | zero => simp at hfuel
      | succ k =>
          simp only [readLoop_succ_eq, hhdr, BYTES_IN_U64_eq]
          rw [hdata]
  | cons ptr nxt rest data hlen hhdr hdata hrest ih =>
      intro acc fuel hfuel
      cases fuel with
      | zero => simp at hfuel
      | succ k =>
          simp only [readLoop_succ_eq, hhdr, BYTES_IN_U64_eq]
          rw [hdata, ih (acc ++ data.take f.config.page_size) k (by simpa using hfuel)]
          rw [List.append_assoc, List.take_append_drop]

/-- The read loop only looks at the bytes of the chain's pages. -/
theorem readLoop_congr (f1 f2 : File) (ptr : Nat) (pages : List Nat)
    (hch : Chain f1 ptr pages)
    (hc : f2.config = f1.config)
    (hbytes : ∀ p ∈ pages, ∀ i, p ≤ i → i < p + f1.config.total_page_size →
      byteAt f2.data i = byteAt f1.data i) :
    ∀ acc fuel, File.readLoop fuel f2 ptr acc = File.readLoop fuel f1 ptr acc := by
  induction hch with
  | final p n hn hhdr =>
      intro acc fuel
      cases fuel with
      | zero => rfl
      | succ k =>
          have hT : 8 + n ≤ f1.config.total_page_size := by
            unfold Config.total_page_size BYTES_IN_U64
            omega
          have hh2 : f2.read_page_header p = .FinalPage n := by
            rw [File.read_page_header_congr f2 f1 p (fun i h1 h2 =>
              hbytes p (by simp) i h1 (by omega))]
            exact hhdr
          simp only [readLoop_succ_eq, hhdr, hh2, BYTES_IN_U64_eq]
          rw [readBytes_congr f2.data f1.data (p + 8) n (fun i h1 h2 =>
            hbytes p (by simp) i (by omega) (by omega))]
  | next p nxt rest hhdr hrest ih =>
      intro acc fuel
      cases fuel with
      | zero => rfl
      | succ k =>
          have hT : 8 + f1.config.page_size ≤ f1.config.total_page_size := by
            unfold Config.total_page_size BYTES_IN_U64
            omega
          have hh2 : f2.read_page_header p = .NextPage nxt := by
            rw [File.read_page_header_congr f2 f1 p (fun i h1 h2 =>
              hbytes p (by simp) i h1 (by omega))]
            exact hhdr
          have hps : f2.config.page_size = f1.config.page_size := by rw [hc]
          simp only [readLoop_succ_eq, hhdr, hh2, BYTES_IN_U64_eq, hps]
          rw [readBytes_congr f2.data f1.data (p + 8) f1.config.page_size (fun i h1 h2 =>
            hbytes p (by simp) i (by omega) (by omega))]
          exact ih (fun q hq i h1 h2 => hbytes q (by simp [hq]) i h1 h2) _ k

/-- A validated read over a chain carrying `data` returns `data` and leaves
the file untouched. -/
theorem read_ok_of_chainW (f : File) (ptr : Nat) (pages data : List Nat)
    (hch : ChainW f ptr pages data)
    (hcheck : f.check_if_pointer_valid ptr = .ok ()) :
    ∀ fuel, pages.length ≤ fuel → f.read ptr fuel = .ok data f := by
  intro fuel hfuel
  unfold File.read
  rw [hcheck, readLoop_of_chainW f ptr pages data hch [] fuel hfuel]
  simp

/-- Pointer validation answers `DeletedPointer` exactly on a well-shaped
pointer whose page header carries the deleted tag. -/
theorem check_deleted (f : File) (ptr v : Nat)
    (h1 : f.header_size ≤ ptr) (h2 : (ptr - f.header_size) % f.total_page_size = 0)
    (h3 : ptr < f.data.length) (hd : f.read_page_header ptr = .DeletedPage v) :
    f.check_if_pointer_valid ptr = .error .DeletedPointer := by
  unfold File.check_if_pointer_valid
  rw [if_neg (by push_neg; exact ⟨h1, h2⟩), if_neg (by unfold File.file_size; omega), hd]

/-- Pointer validation answers `InvalidPointer` on any misshapen pointer. -/
theorem check_invalid (f : File) (ptr : Nat)
    (h : ptr < f.header_size ∨ (ptr - f.header_size) % f.total_page_size ≠ 0 ∨
      f.file_size ≤ ptr) :
    f.check_if_pointer_valid ptr = .error .InvalidPointer := by
  unfold File.check_if_pointer_valid
  by_cases h1 : ptr < f.header_size ∨ (ptr - f.header_size) % f.total_page_size ≠ 0
  · rw [if_pos h1]
  · rw [if_neg h1, if_pos]
    push_neg at h1
    rcases h with hp | hp | hp
    · omega
    · exact absurd hp (by simpa using h1.2)
    · exact hp

/-! ## The claims -/
/-- C1: for every handle `h` returned by `alloc` on a well-formed file and
every byte string `B`, if `write(h, B)` succeeds then a subsequent
`read(h)` succeeds and returns exactly `B` (exactly `|B|` bytes, equal
byte-for-byte to what was written).  Well-formedness is `WFcore` plus a
well-formed free list; the size bound keeps the resulting file below the
spec's standing `2 ^ 62` limit on file offsets. -/
theorem C1_alloc_write_read_roundtrip (f f1 f2 : File) (h : Nat) (B FL : List Nat)
    (fuel : Nat)
    (hwf : WFcore f) (hfree : FreeOK f FL)
    (hroom : f.data.length + (B.length / f.config.page_size + 2) * f.total_page_size ≤ 2 ^ 62)
    (halloc : f.alloc = .ok h f1)
    (hwrite : f1.write h B fuel = .ok () f2) :
    ∃ fuel2, f2.read h fuel2 = .ok B f2 := by
  have hT8 : f.total_page_size = 8 + f.config.page_size := rfl
  have hroom1 : f.data.length + f.total_page_size < 2 ^ 62 := by
    have hmul : 2 * f.total_page_size
        ≤ (B.length / f.config.page_size + 2) * f.total_page_size :=
      Nat.mul_le_mul_right _ (Nat.le_add_left 2 _)
    omega
  obtain ⟨h', f1', FL1, halloc', hc1, hl1a, hl1b, hwf1, hpage1, hhdr1, _, hfok1, hiff1,
    _, _⟩ := alloc_spec f FL hwf hfree hroom1
  have hinj := halloc'.symm.trans halloc
  rw [MRes.ok.injEq] at hinj
  obtain ⟨he1, he2⟩ := hinj
  rw [he1, he2] at hhdr1 hpage1
  rw [he2] at hc1 hl1a hl1b hwf1 hfok1
  rw [he1] at hiff1
  unfold File.write at hwrite
  cases hchk : f1.check_if_pointer_valid h with
  | error e =>
      rw [hchk] at hwrite
      exact absurd hwrite (by simp)
  | ok u =>
      cases u
      rw [hchk] at hwrite
      have hps1 : f1.config.page_size = f.config.page_size := by rw [hc1]
      have hT1 : f1.total_page_size = f.total_page_size := by
        unfold File.total_page_size
        rw [hc1]
      have hch1 : Chain f1 h [h] := Chain.final h 0 (Nat.zero_le _) hhdr1
      have hval1 : ∀ p ∈ [h], PagePtr f1.config p f1.data.length := by
        intro p hp
        rw [List.mem_singleton] at hp
        subst hp
        rw [hc1]
        exact hpage1
      have hdisj1 : ∀ p ∈ [h], p ∉ FL1 := by
        intro p hp
        rw [List.mem_singleton] at hp
        subst hp
        intro hin
        exact ((hiff1 p).mp hin).2 rfl
      have hbound1 : f1.data.length +
          (B.length / f1.config.page_size + 1) * f1.total_page_size ≤ 2 ^ 62 := by
        rw [hps1, hT1]
        have hmul : (B.length / f.config.page_size + 2) * f.total_page_size
            = (B.length / f.config.page_size + 1) * f.total_page_size
              + f.total_page_size := by
          rw [← Nat.succ_mul]
        omega
      obtain ⟨np, FL', hc', hwf', hle', hchW, hcount, hnd, hmemnp, hfok', hflm, hcov,
        hframe⟩ := writeLoop_spec fuel f1 h B [h] FL1 f2 hwf1 hch1 (by simp) hval1
          hfok1 hdisj1 hbound1 hwrite
      have hhp : PagePtr f1.config h f2.data.length := (hmemnp h hchW.head_mem_w).1
      have hcheck2 : f2.check_if_pointer_valid h = .ok () := by
        apply check_ok_of_page
        · rw [hc'.trans hc1, ← hc1]
          exact hhp
        · exact hchW.head_not_deleted_w
      exact ⟨np.length, read_ok_of_chainW f2 h np B hchW hcheck2 np.length le_rfl⟩

/-- C1 witness: on the fresh file `fW`, `alloc` returns page 26; writing
`[7, 8]` there and reading back gives `[7, 8]`. -/
theorem C1_witness : ∃ fuel2, f2W.read 26 fuel2 = .ok [7, 8] f2W := by
  apply C1_alloc_write_read_roundtrip fW f1W f2W 26 [7, 8] [] 5
  · exact ⟨by decide, by decide, by decide, by decide⟩
  · refine ⟨?_, List.nodup_nil, by simp⟩
    have h0 : fW.first_free_page = 0 := by decide
    rw [h0]
    exact FreeChain.nil
  · decide
  · decide
  · decide

/-- C2: for every byte string `B`, after `write_root(B)` succeeds on an
open well-formed file, closing the file and re-opening it with the same
config yields a file on which `read_root()` returns `B`.  Closing keeps
the bytes; re-opening validates the stored magic bytes against the
config. -/
theorem C2_root_persistence (f f2 : File) (B pages FL : List Nat) (fuel : Nat)
    (hwf : WFcore f) (hgc : GoodChain f f.root_page pages) (hfree : FreeOK f FL)
    (hdisj : ∀ p ∈ pages, p ∉ FL)
    (hmagic : readBytes f.data 0 f.config.magic_bytes.length = f.config.magic_bytes)
    (hbound : f.data.length + (B.length / f.config.page_size + 1) * f.total_page_size ≤ 2 ^ 62)
    (hwrite : f.write_root B fuel = .ok () f2) :
    open_file (some f2.data) f.config = (.ok f2, f2.data) ∧
    ∃ fuel2, f2.read_root fuel2 = .ok B f2 := by
  have hT8 : f.total_page_size = 8 + f.config.page_size := rfl
  have hHS : f.header_size = f.config.magic_bytes.length + 16 := by
    unfold File.header_size BYTES_IN_U64
    omega
  unfold File.write_root File.write at hwrite
  cases hchk : f.check_if_pointer_valid f.root_page with
  | error e =>
      rw [hchk] at hwrite
      exact absurd hwrite (by simp)
  | ok u =>
      cases u
      rw [hchk] at hwrite
      obtain ⟨np, FL', hc', hwf', hle', hchW, hcount, hnd, hmemnp, hfok', hflm, hcov,
        hframe⟩ := writeLoop_spec fuel f f.root_page B pages FL f2 hwf hgc.chain
          hgc.nodup hgc.valid hfree hdisj hbound hwrite
      -- every byte of the fixed header (magic, free slot aside, root slot) with
      -- index below the header size and outside the free-list slot is unchanged
      have hhdrpres : ∀ i, i < f.config.magic_bytes.length ∨
          (f.config.magic_bytes.length + 8 ≤ i ∧ i < f.config.magic_bytes.length + 16) →
          byteAt f2.data i = byteAt f.data i := by
        intro i hi
        apply hframe i
        · have := hwf.lenLB
          rw [hHS] at this
          omega
        · intro p hp
          have := (hgc.valid p hp).above_header
          left
          omega
        · intro p hp
          have := (hfree.valid p hp).above_header
          left
          omega
        · rw [File.first_free_page_ptr_eq]
          omega
      have hmagic2 : readBytes f2.data 0 f.config.magic_bytes.length
          = f.config.magic_bytes := by
        rw [readBytes_congr f2.data f.data 0 f.config.magic_bytes.length (fun i h1 h2 =>
          hhdrpres i (Or.inl (by omega)))]
        exact hmagic
      have hlen2 : f.config.magic_bytes.length ≤ f2.data.length := by
        have := hwf.lenLB
        rw [hHS] at this
        omega
      have hcond : ¬ (min f.config.magic_bytes.length f2.data.length
            < f.config.magic_bytes.length ∨
          f.config.magic_bytes ≠ readBytes f2.data 0 f.config.magic_bytes.length) := by
        push_neg
        exact ⟨by omega, hmagic2.symm⟩
      have hvalid : (⟨f2.data, f.config⟩ : File).check_if_file_valid = .ok () := by
        simp only [File.check_if_file_valid]
        rw [if_neg hcond]
      have hf3 : (⟨f2.data, f.config⟩ : File) = f2 := by
        rw [← hc']
      have hopen : open_file (some f2.data) f.config = (.ok f2, f2.data) := by
        have hred : open_file (some f2.data) f.config =
            (match (⟨f2.data, f.config⟩ : File).check_if_file_valid with
             | .error e => (Except.error e, f2.data)
             | .ok _ => (Except.ok (⟨f2.data, f.config⟩ : File), f2.data)) := rfl
        rw [hred]
        simp only [hvalid]
        rw [hf3]
      have hroot2 : f2.root_page = f.root_page := by
        apply File.root_page_congr f2 f hc'
        intro i h1 h2
        rw [File.root_page_ptr_eq, hc'] at h1 h2
        exact hhdrpres i (Or.inr ⟨by omega, by omega⟩)
      have hhp : PagePtr f.config f.root_page f2.data.length :=
        (hmemnp f.root_page hchW.head_mem_w).1
      have hcheck2 : f2.check_if_pointer_valid f.root_page = .ok () := by
        apply check_ok_of_page
        · rw [hc']
          exact hhp
        · exact hchW.head_not_deleted_w
      refine ⟨hopen, np.length, ?_⟩
      unfold File.read_root
      rw [hroot2]
      exact read_ok_of_chainW f2 f.root_page np B hchW hcheck2 np.length le_rfl

/-- C2 witness: writing `[9, 8]` to the root of the fresh file `fW`,
then re-opening the resulting bytes with the same config, reads back
`[9, 8]` from the root. -/
theorem C2_witness : open_file (some f2C2.data) cfgW = (.ok f2C2, f2C2.data) ∧
    ∃ fuel2, f2C2.read_root fuel2 = .ok [9, 8] f2C2 := by
  have hcfg : fW.config = cfgW := by decide
  rw [← hcfg]
  apply C2_root_persistence fW f2C2 [9, 8] [17] [] 5
  · exact ⟨by decide, by decide, by decide, by decide⟩
  · refine ⟨?_, by simp, ?_⟩
    · have h0 : fW.root_page = 17 := by decide
      rw [h0]
      exact Chain.final 17 0 (by decide) (by decide)
    · intro p hp
      rw [List.mem_singleton] at hp
      subst hp
      exact ⟨by decide, by decide, by decide⟩
  · refine ⟨?_, List.nodup_nil, by simp⟩
    have h0 : fW.first_free_page = 0 := by decide
    rw [h0]
    exact FreeChain.nil
  · simp
  · decide
  · decide
  · decide

/-- C3: on a well-formed file, if `h = alloc()` succeeds and `delete(h)`
succeeds immediately after (so `h` heads a one-page chain), the next call
to `alloc()` returns the same handle `h`, popped from the head of the free
list. -/
theorem C3_freed_space_reused (f f1 f2 : File) (h : Nat) (FL : List Nat) (fuel : Nat)
    (hwf : WFcore f) (hfree : FreeOK f FL)
    (hroom : f.data.length + f.total_page_size < 2 ^ 62)
    (halloc : f.alloc = .ok h f1) (hdel : f1.delete h fuel = .ok () f2) :
    ∃ f3, f2.alloc = .ok h f3 := by
  obtain ⟨h', f1', FL1, halloc', hc1, hl1a, hl1b, hwf1, hpage1, hhdr1, _, hfok1, hiff1,
    _, _⟩ := alloc_spec f FL hwf hfree hroom
  have hinj := halloc'.symm.trans halloc
  rw [MRes.ok.injEq] at hinj
  obtain ⟨he1, he2⟩ := hinj
  rw [he1, he2] at hhdr1 hpage1
  rw [he2] at hc1 hwf1 hfok1
  rw [he1] at hiff1
  have hch1 : Chain f1 h [h] := Chain.final h 0 (Nat.zero_le _) hhdr1
  unfold File.delete at hdel
  cases hchk : f1.check_if_pointer_valid h with
  | error e =>
      rw [hchk] at hdel
      exact absurd hdel (by simp)
  | ok u =>
      cases u
      rw [hchk] at hdel
      obtain ⟨hc2, hlen2, hfok2, hlast2, _⟩ :=
        deleteLoop_ok [h] fuel f1 h FL1 f2 hwf1 hch1 (by simp)
          (by intro p hp; rw [List.mem_singleton] at hp; subst hp; rw [hc1]; exact hpage1)
          hfok1
          (by intro p hp; rw [List.mem_singleton] at hp; subst hp
              intro hin; exact ((hiff1 p).mp hin).2 rfl)
          hdel
      have hffp2 : f2.first_free_page = h := by
        simp only [List.getLast?_singleton, Option.some.injEq] at hlast2
        exact hlast2.symm
      have hne0 : h ≠ 0 := by
        have := hpage1.pos
        omega
      have hchain2 : FreeChain f2 f2.first_free_page (h :: FL1) := by
        have := hfok2.chain
        simpa using this
      obtain ⟨_, _, nxt, hhdr2, _⟩ :=
        FreeChain.head_eq f2 f2.first_free_page h FL1 (hchain2)
      refine ⟨(f2.write_u64 f2.first_free_page_ptr nxt).write_page_header h (.FinalPage 0), ?_⟩
      show File.alloc f2 = _
      unfold File.alloc
      rw [hffp2, if_neg hne0, hhdr2]

/-- C3 witness: on `fW`, `alloc` returns 26; after `delete 26`, the next
`alloc` returns 26 again. -/
theorem C3_witness : ∃ f3, fdelW.alloc = .ok 26 f3 := by
  apply C3_freed_space_reused fW f1W fdelW 26 [] 5
  · exact ⟨by decide, by decide, by decide, by decide⟩
  · refine ⟨?_, List.nodup_nil, by simp⟩
    have h0 : fW.first_free_page = 0 := by decide
    rw [h0]
    exact FreeChain.nil
  · decide
  · decide
  · decide

/-- C4: for every valid active handle `h` and data, after a successful
`write(h, data)` the chain rooted at `h` consists of exactly
`⌈max 1 |data| / page_size⌉` pages — in particular an empty write leaves a
single `FinalPage 0` page (witnessed by the `ChainW` over the empty
string), and every page of the previous chain is either still in the new
chain or has been released to the (still well-formed) free list. -/
theorem C4_page_count (f f2 : File) (h : Nat) (data pages FL : List Nat) (fuel : Nat)
    (hwf : WFcore f) (hgc : GoodChain f h pages) (hfree : FreeOK f FL)
    (hdisj : ∀ p ∈ pages, p ∉ FL)
    (hbound : f.data.length + (data.length / f.config.page_size + 1) * f.total_page_size
      ≤ 2 ^ 62)
    (hwrite : f.write h data fuel = .ok () f2) :
    ∃ newpages FL',
      ChainW f2 h newpages data ∧
      newpages.length = max 1 ((data.length + f.config.page_size - 1) / f.config.page_size) ∧
      newpages.Nodup ∧
      FreeOK f2 FL' ∧
      (∀ p ∈ pages, p ∈ newpages ∨ p ∈ FL') := by
  unfold File.write at hwrite
  cases hchk : f.check_if_pointer_valid h with
  | error e =>
      rw [hchk] at hwrite
      exact absurd hwrite (by simp)
  | ok u =>
      cases u
      rw [hchk] at hwrite
      obtain ⟨np, FL', _, _, _, hchW, hcount, hnd, _, hfok', _, hcov, _⟩ :=
        writeLoop_spec fuel f h data pages FL f2 hwf hgc.chain hgc.nodup hgc.valid
          hfree hdisj hbound hwrite
      exact ⟨np, FL', hchW, hcount, hnd, hfok', hcov⟩

/-- C4 witness: writing the empty string to the fresh one-page chain at 26
leaves a one-page `FinalPage 0` chain and an empty free list. -/
theorem C4_witness : ∃ newpages FL',
    ChainW (match f1W.write 26 [] 5 with | .ok _ g => g | _ => f1W) 26 newpages
      ([] : List Nat) ∧
    newpages.length = max 1 ((([] : List Nat).length + f1W.config.page_size - 1)
      / f1W.config.page_size) ∧
    newpages.Nodup ∧
    FreeOK (match f1W.write 26 [] 5 with | .ok _ g => g | _ => f1W) FL' ∧
    (∀ p ∈ [26], p ∈ newpages ∨ p ∈ FL') := by
  apply C4_page_count f1W _ 26 [] [26] [] 5
  · exact ⟨by decide, by decide, by decide, by decide⟩
  · refine ⟨Chain.final 26 0 (by decide) (by decide), by simp, ?_⟩
    intro p hp
    rw [List.mem_singleton] at hp
    subst hp
    exact ⟨by decide, by decide, by decide⟩
  · refine ⟨?_, List.nodup_nil, by simp⟩
    have h0 : f1W.first_free_page = 0 := by decide
    rw [h0]
    exact FreeChain.nil
  · simp
  · decide
  · decide

/-- C5: for every handle supplied to `read`, `write` or `delete`: a handle
below the header size, or misaligned relative to the page stride, or at or
beyond the current file size fails with `InvalidPointer`; a handle passing
those shape checks whose page currently carries a `DELETED` tag fails with
`DeletedPointer`.  In both cases the file bytes are returned unchanged. -/
theorem C5_handle_validation (f : File) (ptr : Nat) (data : List Nat) (fuel : Nat) :
    ((ptr < f.header_size ∨ (ptr - f.header_size) % f.total_page_size ≠ 0 ∨
        f.file_size ≤ ptr) →
      f.read ptr fuel = .err .InvalidPointer f ∧
      f.write ptr data fuel = .err .InvalidPointer f ∧
      f.delete ptr fuel = .err .InvalidPointer f) ∧
    (f.header_size ≤ ptr → (ptr - f.header_size) % f.total_page_size = 0 →
      ptr < f.file_size → (∃ v, f.read_page_header ptr = .DeletedPage v) →
      f.read ptr fuel = .err .DeletedPointer f ∧
      f.write ptr data fuel = .err .DeletedPointer f ∧
      f.delete ptr fuel = .err .DeletedPointer f) := by
  constructor
  · intro hbad
    have hchk : f.check_if_pointer_valid ptr = .error .InvalidPointer :=
      check_invalid f ptr hbad
    refine ⟨?_, ?_, ?_⟩
    · unfold File.read
      rw [hchk]
    · unfold File.write
      rw [hchk]
    · unfold File.delete
      rw [hchk]
  · intro h1 h2 h3 hdel
    obtain ⟨v, hv⟩ := hdel
    have hchk : f.check_if_pointer_valid ptr = .error .DeletedPointer :=
      check_deleted f ptr v h1 h2 h3 hv
    refine ⟨?_, ?_, ?_⟩
    · unfold File.read
      rw [hchk]
    · unfold File.write
      rw [hchk]
    · unfold File.delete
      rw [hchk]

/-- C5 witness: on `fW`, reading handle 3 (below the 17-byte header) fails
with `InvalidPointer`; on `fdelW` (where page 26 was deleted), reading
handle 26 fails with `DeletedPointer`. -/
theorem C5_witness :
    fW.read 3 5 = .err .InvalidPointer fW ∧
    fdelW.read 26 5 = .err .DeletedPointer fdelW := by
  constructor
  · exact ((C5_handle_validation fW 3 [] 5).1 (by decide)).1
  · exact ((C5_handle_validation fdelW 26 [] 5).2 (by decide) (by decide) (by decide)
      ⟨0, by decide⟩).1

/-- The delete loop itself only ever fails with `CorruptedFile`; the
pointer errors can only come from the validation before it. -/
theorem deleteLoop_err_corrupted :
    ∀ (fuel : Nat) (f : File) (ptr : Nat) (e : Error) (g : File),
    File.deleteLoop fuel f ptr = .err e g → e = .CorruptedFile := by
  intro fuel
  induction fuel with
  | zero =>
      intro f ptr e g h
      exact absurd h (by simp [File.deleteLoop])
  | succ k ih =>
      intro f ptr e g h
      rw [deleteLoop_succ_eq] at h
      cases hh : f.read_page_header ptr with
      | NextPage nxt =>
          simp only [hh] at h
          exact ih _ _ _ _ h
      | FinalPage n =>
          simp only [hh] at h
          exact absurd h (by simp)
      | DeletedPage v =>
          simp only [hh] at h
          exact ((MRes.err.injEq _ _ _ _).mp h).1.symm

/-- C6 counterexample: the claim "whenever write returns `InvalidPointer`
the bytes of the underlying file are exactly the same as before the call"
fails on the corrupted file `fC6`: writing `[1, 2]` at handle 17 first
writes the payload byte 1 into page 17, then follows the corrupt
`NextPage 3` link of page 26 into `delete`, whose validation fails — so
write returns `InvalidPointer` with the payload byte already changed. -/
theorem C6_counterexample :
    fC6.write 17 [1, 2] 5 = .err .InvalidPointer fC6mut ∧ fC6mut.data ≠ fC6.data :=
  ⟨by decide, by decide⟩

/-- C6 (amended): whenever `read` or `delete` returns `InvalidPointer` or
`DeletedPointer`, or `open` of an existing file returns `InvalidFile`, the
bytes of the underlying file are exactly the same as before the call; and
`write` leaves the bytes unchanged whenever its entry validation fails
with such an error.  (On a corrupted file, `write` can also surface
`InvalidPointer`/`DeletedPointer` from the internal `delete` of an
orphaned tail after payload bytes were already written, so the unamended
claim fails for `write`.) -/
theorem C6_amended_error_purity (f fe : File) (d : List Nat) (cfg : Config) (ptr : Nat)
    (data : List Nat) (fuel : Nat) (e : Error)
    (he : e = .InvalidPointer ∨ e = .DeletedPointer) :
    (f.read ptr fuel = .err e fe → fe = f) ∧
    (f.delete ptr fuel = .err e fe → fe = f) ∧
    (f.check_if_pointer_valid ptr = .error e → f.write ptr data fuel = .err e f) ∧
    ((open_file (some d) cfg).1 = .error .InvalidFile → (open_file (some d) cfg).2 = d) := by
  refine ⟨?_, ?_, ?_, ?_⟩
  · intro hread
    unfold File.read at hread
    cases hchk : f.check_if_pointer_valid ptr with
    | error e2 =>
        rw [hchk] at hread
        exact ((MRes.err.injEq _ _ _ _).mp hread).2.symm
    | ok u =>
        cases u
        rw [hchk] at hread
        cases hrl : File.readLoop fuel f ptr [] with
        | ok dd =>
            rw [hrl] at hread
            exact absurd hread (by simp)
        | err e2 =>
            rw [hrl] at hread
            exact ((MRes.err.injEq _ _ _ _).mp hread).2.symm
        | div =>
            rw [hrl] at hread
            exact absurd hread (by simp)
  · intro hdel
    unfold File.delete at hdel
    cases hchk : f.check_if_pointer_valid ptr with
    | error e2 =>
        rw [hchk] at hdel
        exact ((MRes.err.injEq _ _ _ _).mp hdel).2.symm
    | ok u =>
        cases u
        rw [hchk] at hdel
        have := deleteLoop_err_corrupted fuel f ptr e fe hdel
        rcases he with he | he <;> rw [he] at this <;> exact absurd this (by simp)
  · intro hc
    unfold File.write
    rw [hc]
  · intro _
    unfold open_file
    cases hv : (⟨d, cfg⟩ : File).check_if_file_valid with
    | error e2 => simp [hv]
    | ok u => simp [hv]

/-- C6 witness: on the fresh file `fW`, reading the misshapen handle 3
fails with `InvalidPointer` and — by the amended claim applied at that
input — leaves the file unchanged. -/
theorem C6_witness : fW.read 3 5 = .err .InvalidPointer fW ∧ fW = fW :=
  ⟨by decide,
    (C6_amended_error_purity fW fW [] cfgW 3 [] 5 .InvalidPointer (Or.inl rfl)).1
      (by decide)⟩

/-- C7 counterexample: deleting the two-page chain 17 → 26 of `fd`
succeeds, but afterwards the free-list head slot holds 26 — the chain's
last page — and not 17, the chain's first page, refuting the claim that
the head slot holds the chain's first page. -/
theorem C7_counterexample :
    fd.delete 17 5 = .ok () fdDel ∧ fdDel.first_free_page = 26 ∧ (26 : Nat) ≠ 17 :=
  ⟨by decide, by decide, by decide⟩

/-- C7 (amended): for every active chain p1 → p2 → … → pk (visited in
chain order from the supplied handle to its `FINAL` page), after a
successful `delete(p1)` the free-list head slot holds pk, the chain's
last page; the chain's pages sit on the free list in reverse visit order
ahead of the old free list. -/
theorem C7_amended_delete_pushes_chain (f f' : File) (p1 fuel : Nat) (pages FL : List Nat)
    (hwf : WFcore f) (hgc : GoodChain f p1 pages) (hfree : FreeOK f FL)
    (hdisj : ∀ p ∈ pages, p ∉ FL)
    (hdel : f.delete p1 fuel = .ok () f') :
    pages.getLast? = some f'.first_free_page ∧ FreeOK f' (pages.reverse ++ FL) := by
  unfold File.delete at hdel
  cases hchk : f.check_if_pointer_valid p1 with
  | error e =>
      rw [hchk] at hdel
      exact absurd hdel (by simp)
  | ok u =>
      cases u
      rw [hchk] at hdel
      obtain ⟨_, _, hfok', hlast', _⟩ :=
        deleteLoop_ok pages fuel f p1 FL f' hwf hgc.chain hgc.nodup hgc.valid hfree
          hdisj hdel
      exact ⟨hlast', hfok'⟩

/-- C7 witness: deleting the chain [17, 26] of `fd` leaves the head slot
holding 26 = the last page, with free list [26, 17]. -/
theorem C7_witness :
    [17, 26].getLast? = some fdDel.first_free_page ∧
    FreeOK fdDel ([17, 26].reverse ++ []) := by
  apply C7_amended_delete_pushes_chain fd fdDel 17 5 [17, 26] []
  · exact ⟨by decide, by decide, by decide, by decide⟩
  · refine ⟨?_, by decide, ?_⟩
    · exact Chain.next 17 26 [26] (by decide)
        (Chain.final 26 1 (by decide) (by decide))
    · intro p hp
      rcases List.mem_cons.mp hp with hp | hp
      · subst hp
        exact ⟨by decide, by decide, by decide⟩
      · rw [List.mem_singleton] at hp
        subst hp
        exact ⟨by decide, by decide, by decide⟩
  · refine ⟨?_, List.nodup_nil, by simp⟩
    have h0 : fd.first_free_page = 0 := by decide
    rw [h0]
    exact FreeChain.nil
  · simp
  · decide

/-- C8: every 64-bit header word whose top two bits are the reserved tag
11 decodes to a `DELETED` header whose value is the low 62 bits; and for
every header variant with a value below `2 ^ 62`, encoding never produces
a word tagged 11. -/
theorem C8_reserved_tag (w : Nat) (_hw : w < 2 ^ 64) (h : PageHeader)
    (hv : h.value < 2 ^ 62) :
    (w >>> 62 = 3 → PageHeader.from_u64 w = .DeletedPage (w % 2 ^ 62)) ∧
    h.to_u64 >>> 62 ≠ 3 := by
  constructor
  · intro htag
    rw [Nat.shiftRight_eq_div_pow] at htag
    have hw3 : w = 2 ^ 62 * 3 + w % 2 ^ 62 := by
      have := Nat.div_add_mod w (2 ^ 62)
      omega
    calc PageHeader.from_u64 w
        = PageHeader.from_u64 (2 ^ 62 * 3 + w % 2 ^ 62) := by rw [← hw3]
      _ = .DeletedPage (w % 2 ^ 62) := by
          rw [PageHeader.from_u64_decompose 3 _ (by norm_num)
            (Nat.mod_lt _ (by norm_num))]
          norm_num
  · intro htag
    rw [Nat.shiftRight_eq_div_pow, PageHeader.to_u64_eq h hv] at htag
    have ht : h.tagNum ≤ 2 := by cases h <;> simp [PageHeader.tagNum]
    have hdiv : (2 ^ 62 * h.tagNum + h.value) / 2 ^ 62 = h.tagNum := by
      rw [Nat.mul_add_div (by norm_num)]
      have := Nat.div_eq_of_lt hv
      omega
    omega

/-- C8 witness: the word `3 · 2 ^ 62 + 7` (tag bits 11) decodes to
`DeletedPage 7`, and encoding `FinalPage 5` is not tagged 11. -/
theorem C8_witness :
    PageHeader.from_u64 (2 ^ 62 * 3 + 7) = .DeletedPage ((2 ^ 62 * 3 + 7) % 2 ^ 62) ∧
    (PageHeader.FinalPage 5).to_u64 >>> 62 ≠ 3 := by
  have hmain := C8_reserved_tag (2 ^ 62 * 3 + 7) (by norm_num) (.FinalPage 5)
    (by simp [PageHeader.value])
  exact ⟨hmain.1 (by decide), hmain.2⟩

/-- C9: `delete` accepts the root blob's handle like any other (no guard
distinguishes the root): on a well-formed file it succeeds, and every
subsequent `read_root` or `write_root` then fails with `DeletedPointer`,
even though the root-handle slot still holds that handle. -/
theorem C9_delete_root (f : File) (pages FL : List Nat)
    (hwf : WFcore f) (hgc : GoodChain f f.root_page pages) (hfree : FreeOK f FL)
    (hdisj : ∀ p ∈ pages, p ∉ FL) :
    ∃ f', f.delete f.root_page pages.length = .ok () f' ∧
      f'.root_page = f.root_page ∧
      (∀ fuel, f'.read_root fuel = .err .DeletedPointer f') ∧
      (∀ data fuel, f'.write_root data fuel = .err .DeletedPointer f') := by
  have hT8 : f.total_page_size = 8 + f.config.page_size := rfl
  have hrootp : PagePtr f.config f.root_page f.data.length :=
    hgc.valid _ hgc.chain.head_mem
  have hcheck : f.check_if_pointer_valid f.root_page = .ok () :=
    check_ok_of_page f _ hrootp (hgc.chain.head_not_deleted)
  obtain ⟨f', hdl⟩ := deleteLoop_total pages pages.length f f.root_page FL hwf
    hgc.chain hgc.nodup hgc.valid hfree hdisj le_rfl
  obtain ⟨hc', hlen', hfok', hlast', hframe'⟩ :=
    deleteLoop_ok pages pages.length f f.root_page FL f' hwf hgc.chain hgc.nodup
      hgc.valid hfree hdisj hdl
  have hdelete : f.delete f.root_page pages.length = .ok () f' := by
    unfold File.delete
    rw [hcheck]
    exact hdl
  have hroot' : f'.root_page = f.root_page := by
    apply File.root_page_congr f' f hc'
    intro i h1 h2
    rw [File.root_page_ptr_eq, hc'] at h1 h2
    apply hframe' i
    · intro p hp
      have := (hgc.valid p hp).above_header
      left
      omega
    · rw [File.first_free_page_ptr_eq]
      right
      omega
  have hmem : f.root_page ∈ pages.reverse ++ FL := by
    rw [List.mem_append, List.mem_reverse]
    exact Or.inl hgc.chain.head_mem
  obtain ⟨v, hhdr'⟩ := FreeChain.mem_deleted f' _ _ hfok'.chain f.root_page hmem
  have hhs' : f'.header_size = f.header_size := by
    unfold File.header_size
    rw [hc']
  have hT' : f'.total_page_size = f.total_page_size := by
    unfold File.total_page_size
    rw [hc']
  have hchk' : f'.check_if_pointer_valid f.root_page = .error .DeletedPointer := by
    apply check_deleted f' f.root_page v
    · rw [hhs']
      exact hrootp.hs_le
    · rw [hhs', hT']
      exact hrootp.aligned
    · rw [hlen']
      have := hrootp.in_bounds
      have h8 : 8 ≤ f.config.total_page_size := by
        unfold Config.total_page_size BYTES_IN_U64
        omega
      omega
    · exact hhdr'
  refine ⟨f', hdelete, hroot', ?_, ?_⟩
  · intro fuel
    unfold File.read_root File.read
    rw [hroot', hchk']
  · intro data fuel
    unfold File.write_root File.write
    rw [hroot', hchk']

/-- C9 witness: on the fresh file `fW` (root chain `[17]`), deleting the
root handle succeeds and afterwards root reads and writes fail with
`DeletedPointer` while the root slot still holds 17. -/
theorem C9_witness :
    ∃ f', fW.delete fW.root_page 1 = .ok () f' ∧
      f'.root_page = fW.root_page ∧
      (∀ fuel, f'.read_root fuel = .err .DeletedPointer f') ∧
      (∀ data fuel, f'.write_root data fuel = .err .DeletedPointer f') := by
  have hmain := C9_delete_root fW [17] []
    ⟨by decide, by decide, by decide, by decide⟩
    (by
      refine ⟨?_, by simp, ?_⟩
      · have h0 : fW.root_page = 17 := by decide
        rw [h0]
        exact Chain.final 17 0 (by decide) (by decide)
      · intro p hp
        rw [List.mem_singleton] at hp
        subst hp
        exact ⟨by decide, by decide, by decide⟩)
    (by
      refine ⟨?_, List.nodup_nil, by simp⟩
      have h0 : fW.first_free_page = 0 := by decide
      rw [h0]
      exact FreeChain.nil)
    (by simp)
  simpa using hmain

/-- C10: for two disjoint active chains `h1`, `h2` in a well-formed file,
a successful `write(h1, B)` leaves the result of `read(h2)` unchanged:
the pages written by `write` never belong to the other chain. -/
theorem C10_write_frame (f f' : File) (h1 h2 : Nat) (B pages1 pages2 FL : List Nat)
    (fuel : Nat)
    (hwf : WFcore f) (hg1 : GoodChain f h1 pages1) (hg2 : GoodChain f h2 pages2)
    (hfree : FreeOK f FL)
    (hd12 : ∀ p ∈ pages1, p ∉ pages2)
    (hd1F : ∀ p ∈ pages1, p ∉ FL) (hd2F : ∀ p ∈ pages2, p ∉ FL)
    (hbound : f.data.length + (B.length / f.config.page_size + 1) * f.total_page_size
      ≤ 2 ^ 62)
    (hwrite : f.write h1 B fuel = .ok () f') :
    ∀ fuel2 d g, f.read h2 fuel2 = .ok d g → f'.read h2 fuel2 = .ok d f' := by
  have hT8 : f.total_page_size = 8 + f.config.page_size := rfl
  have hTc : f.total_page_size = f.config.total_page_size := rfl
  unfold File.write at hwrite
  cases hchk : f.check_if_pointer_valid h1 with
  | error e =>
      rw [hchk] at hwrite
      exact absurd hwrite (by simp)
  | ok u =>
      cases u
      rw [hchk] at hwrite
      obtain ⟨np, FL', hc', hwf', hle', _, _, _, _, _, _, _, hframe⟩ :=
        writeLoop_spec fuel f h1 B pages1 FL f' hwf hg1.chain hg1.nodup hg1.valid
          hfree hd1F hbound hwrite
      have hpres : ∀ p ∈ pages2, ∀ i, p ≤ i → i < p + f.config.total_page_size →
          byteAt f'.data i = byteAt f.data i := by
        intro p hp i hi1 hi2
        have hpp := hg2.valid p hp
        apply hframe i
        · have := hpp.in_bounds
          omega
        · intro q hq
          have hne : q ≠ p := fun he => hd12 q hq (he ▸ hp)
          rcases PagePtr.region_disjoint f.config q p f.data.length (hg1.valid q hq)
            hpp hne with hd | hd
          · right
            rw [hTc]
            omega
          · left
            omega
        · intro q hq
          have hne : q ≠ p := fun he => hd2F p hp (he ▸ hq)
          rcases PagePtr.region_disjoint f.config q p f.data.length (hfree.valid q hq)
            hpp hne with hd | hd
          · right
            rw [hTc]
            omega
          · left
            omega
        · rw [File.first_free_page_ptr_eq]
          have := hpp.above_header
          right
          omega
      have hch2' : Chain f' h2 pages2 := Chain_congr f f' h2 pages2 hc' hg2.chain hpres
      have hh2p : PagePtr f.config h2 f.data.length := hg2.valid _ hg2.chain.head_mem
      have hchk2' : f'.check_if_pointer_valid h2 = .ok () := by
        apply check_ok_of_page
        · rw [hc']
          exact ⟨hh2p.hs_le, hh2p.aligned, by have := hh2p.in_bounds; omega⟩
        · exact hch2'.head_not_deleted
      intro fuel2 d g hread
      unfold File.read at hread ⊢
      cases hchk2 : f.check_if_pointer_valid h2 with
      | error e =>
          rw [hchk2] at hread
          exact absurd hread (by simp)
      | ok u =>
          cases u
          rw [hchk2] at hread
          rw [hchk2']
          rw [readLoop_congr f f' h2 pages2 hg2.chain hc' hpres [] fuel2]
          cases hrl : File.readLoop fuel2 f h2 [] with
          | ok dd =>
              rw [hrl] at hread
              have hdd : dd = d := ((MRes.ok.injEq _ _ _ _).mp hread).1
              subst hdd
              rfl
          | err e2 =>
              rw [hrl] at hread
              exact absurd hread (by simp)
          | div =>
              rw [hrl] at hread
              exact absurd hread (by simp)

/-- C10 witness: in `f1W` the root chain `[17]` and the fresh chain `[26]`
are disjoint; writing `[3]` at 26 leaves the read of 17 unchanged
(the empty root blob). -/
theorem C10_witness : fw10.read 17 1 = .ok [] fw10 := by
  have hg17 : GoodChain f1W 17 [17] := by
    refine ⟨Chain.final 17 0 (by decide) (by decide), by simp, ?_⟩
    intro p hp
    rw [List.mem_singleton] at hp
    subst hp
    exact ⟨by decide, by decide, by decide⟩
  have hg26 : GoodChain f1W 26 [26] := by
    refine ⟨Chain.final 26 0 (by decide) (by decide), by simp, ?_⟩
    intro p hp
    rw [List.mem_singleton] at hp
    subst hp
    exact ⟨by decide, by decide, by decide⟩
  have hfree : FreeOK f1W [] := by
    refine ⟨?_, List.nodup_nil, by simp⟩
    have h0 : f1W.first_free_page = 0 := by decide
    rw [h0]
    exact FreeChain.nil
  exact C10_write_frame f1W fw10 26 17 [3] [26] [17] [] 5
    ⟨by decide, by decide, by decide, by decide⟩ hg26 hg17 hfree
    (by decide) (by simp) (by simp) (by decide) (by decide)
    1 [] f1W (by decide)

end Verter
